import Mathlib

set_option maxRecDepth 4000

/-! # Verification of the mev-inspect classification and batch pipeline

Shallow embedding of the repository's data model and algorithms:
addresses and 256-bit token amounts are natural numbers (every comparison
in the source is byte-exact, and no arithmetic that could overflow is
performed on them), calldata is a list of bytes, fallible operations
return `Option`.  The definitions follow the source files
`src/inspectors/balancer.rs`, `src/inspectors/compound.rs`,
`src/traits.rs` and `src/inspectors/batch.rs`. -/

/-! ## Core data model -/

abbrev Address := Nat
abbrev U256 := Nat
abbrev Bytes := List Nat

inductive CallType
| call
| delegateCall
| staticCall
| callCode
| create
deriving DecidableEq, Repr

inductive Protocol
| balancer
| compound
| uniswapV2
| erc20
deriving DecidableEq, Repr

inductive CallClassification
| unknown
| transfer
| swap
| liquidation
| addLiquidity
| deposit
| withdrawal
| prune
deriving DecidableEq, Repr

structure InternalCall where
  from_ : Address
  to_ : Address
  value : U256
  input : Bytes
  call_type : CallType
  trace_address : List Nat
  protocol : Option Protocol
  classification : CallClassification
deriving DecidableEq, Repr

structure Transfer where
  from_ : Address
  to_ : Address
  amount : U256
  token : Address
deriving DecidableEq, Repr

structure Trade where
  t1 : Transfer
  t2 : Transfer
deriving DecidableEq, Repr

structure Liquidation where
  sent_token : Address
  sent_amount : U256
  received_token : Address
  received_amount : U256
  from_ : Address
  liquidated_user : Address
deriving DecidableEq, Repr

inductive SpecificAction
| transfer (t : Transfer)
| trade (t : Trade)
| liquidation (l : Liquidation)
| liquidationCheck
deriving DecidableEq, Repr

/-- One entry of an inspection's action list: either a decoded action
(`Classification::Known` with its trace address), a still-unclassified call
(`Classification::Unknown`), or a pruned slot (`Classification::Prune`). -/
inductive Classification
| known (action : SpecificAction) (trace : List Nat)
| unknown (call : InternalCall)
| prune
deriving DecidableEq, Repr

inductive Status
| success
| reverted
| checked
deriving DecidableEq, Repr

structure Inspection where
  status : Status
  actions : List Classification
  protocols : List Protocol
deriving DecidableEq, Repr

def Classification.as_transfer : Classification → Option Transfer
  | .known (.transfer t) _ => some t
  | _ => none

def Classification.as_call : Classification → Option InternalCall
  | .unknown c => some c
  | _ => none

/-- Insertion into the inspection's protocol set (`HashSet::insert`). -/
def insertProtocol (ps : List Protocol) (p : Protocol) : List Protocol :=
  if p ∈ ps then ps else ps ++ [p]

/-! ## ABI decoding

The ethers `BaseContract::decode` path: the first four calldata bytes must
equal the function selector, and the remaining bytes must contain at least
one 32-byte big-endian word per (static) argument; trailing bytes are
tolerated.  An ABI `address` argument keeps the low 20 bytes of its word. -/

def beWord (bs : Bytes) : Nat :=
  bs.foldl (fun a b => a * 256 + b % 256) 0

def argWords (n : Nat) (bs : Bytes) : List Nat :=
  (List.range n).map (fun k => beWord ((bs.drop (32 * k)).take 32))

def decodeArgs (sel : Bytes) (n : Nat) (input : Bytes) : Option (List Nat) :=
  if input.take 4 = sel ∧ 4 + 32 * n ≤ input.length then
    some (argWords n (input.drop 4))
  else
    none

def addrOf (w : Nat) : Address := w % 2 ^ 160

/-- Selector of `swapExactAmountIn(address,uint256,address,uint256,uint256)`. -/
def swapExactAmountInSel : Bytes := [0x82, 0x01, 0xaa, 0x3f]

/-- Selector of `swapExactAmountOut(address,uint256,address,uint256,uint256)`. -/
def swapExactAmountOutSel : Bytes := [0x7c, 0x5e, 0x9e, 0xa4]

/-- Selector of the cToken `liquidateBorrow(address,uint256,address)`. -/
def liquidateBorrowSel : Bytes := [0xf5, 0xe3, 0xc4, 0x62]

/-- Selector of the cEther `liquidateBorrow(address,address)`. -/
def liquidateBorrowEthSel : Bytes := [0xaa, 0xe4, 0x0a, 0x2a]

/-- Selector of `seize(address,address,uint256)`. -/
def seizeSel : Bytes := [0xb2, 0xa0, 0x2f, 0xf1]

/-- Selector of `seizeInternal(address,address,address,uint256)` from the
repository's cToken ABI asset. -/
def seizeInternalSel : Bytes := [0xeb, 0xcf, 0x73, 0x8f]

/-- Selector of the comptroller `liquidateBorrowAllowed`. -/
def liquidateBorrowAllowedSel : Bytes := [0x5f, 0xc7, 0xe7, 0x1e]

/-- Selector of the price oracle `getUnderlyingPrice(address)`. -/
def getUnderlyingPriceSel : Bytes := [0xfc, 0x57, 0xd4, 0xdf]

/-- Address constant `BALANCER_PROXY` from the address book. -/
def BALANCER_PROXY : Address := 0x3e66b66fd1d0b02fda6c811da9e0547970db2f21

/-- Address constant `COMPTROLLER` from the address book. -/
def COMPTROLLER : Address := 0x3d9819210a31b4961b30ef54be2aed79b9c9cd3b

/-- Address constant `COMP_ORACLE` from the address book. -/
def COMP_ORACLE : Address := 0x922018674c12a7f0d394ebeef9b58f186cde13c1

/-- Address constant `WETH` (wrapped native) from the address book. -/
def WETH : Address := 0xc02aaa39b223fe8d0a0e5c4f27ead9083c756cc2

/-- Address constant `CETH` from the address book. -/
def CETH : Address := 0x4ddc2d193948926d02f9b1fe9e1daa0718270ed5

/-! ## Balancer inspector (`src/inspectors/balancer.rs`) -/

namespace Balancer

def mkSwap : List Nat → Option (Address × U256 × Address × U256 × U256)
  | [a, b, c, d, e] => some (addrOf a, b, addrOf c, d, e)
  | _ => none

/-- The `bpool.decode::<Swap, _>("swapExactAmountIn", input)` call with the
`swapExactAmountOut` fallback, as used both by `classify_call` and by
`Balancer::inspect`. -/
def decodeSwap (input : Bytes) : Option (Address × U256 × Address × U256 × U256) :=
  match decodeArgs swapExactAmountInSel 5 input with
  | some ws => mkSwap ws
  | none =>
    match decodeArgs swapExactAmountOutSel 5 input with
    | some ws => mkSwap ws
    | none => none

/-- `Balancer::is_protocol`: `Some(*to == *BALANCER_PROXY)`. -/
def is_protocol (a : Address) : Option Bool :=
  some (a == BALANCER_PROXY)

/-- `Balancer::classify_call`: a call is a `Swap` iff its input decodes as
`swapExactAmountIn` or `swapExactAmountOut`. -/
def classify_call (call : InternalCall) : Option CallClassification :=
  (decodeSwap call.input).map (fun _ => CallClassification.swap)

end Balancer

/-- Modelled from the spec: the crate-level `find_matching` helper (in
`src/inspectors/mod.rs`, which is not among the sources) locates, among the
enumerated actions that follow the swap, the transfer leg whose token
satisfies the check; the enumeration keeps original indices. -/
def find_matching (acts : List (Nat × Classification)) (check : Transfer → Bool) :
    Option (Nat × Transfer) :=
  match acts with
  | [] => none
  | (i, a) :: rest =>
    match a.as_transfer with
    | some t => if check t then some (i, t) else find_matching rest check
    | none => find_matching rest check

namespace Balancer

/-- One iteration of the `for i in 0..inspection.actions.len()` loop of
`Balancer::inspect`.  `orig` is the snapshot `inspection.actions.to_vec()`
taken before the loop; the running state carries the (mutated) action list,
the protocol set and the accumulated prune indices. -/
def step (orig : List Classification)
    (st : List Classification × List Protocol × List Nat) (i : Nat) :
    List Classification × List Protocol × List Nat :=
  let acts := st.1
  let prots := st.2.1
  let pr := st.2.2
  match acts.get? i with
  | some (Classification.unknown call) =>
    match decodeSwap call.input with
    | some (token_in, _, token_out, _, _) =>
      match find_matching (orig.enum.drop (i + 1)) (fun t => t.token == token_in),
            find_matching (orig.enum.drop (i + 1)) (fun t => t.token == token_out) with
      | some (j, t1), some (k, t2) =>
        if t1.from_ ≠ t2.to_ ∨ t2.from_ ≠ t1.to_ then (acts, prots, pr)
        else
          (acts.set i (Classification.known (SpecificAction.trade ⟨t1, t2⟩) []),
           insertProtocol prots Protocol.balancer, pr ++ [j, k])
      | _, _ => (acts, prots, pr)
    | none =>
      if (is_protocol call.to_).getD false then
        (acts, insertProtocol prots Protocol.balancer, pr)
      else
        (acts, prots, pr)
  | _ => (acts, prots, pr)

/-- `Balancer::inspect` (`impl Inspector for Balancer`): iterate over all
action indices, then re-tag the collected prune indices as `Prune`. -/
def inspect (insp : Inspection) : Inspection :=
  let orig := insp.actions
  let res := (List.range orig.length).foldl (step orig) (orig, insp.protocols, [])
  { status := insp.status,
    actions := res.2.2.foldl (fun a p => a.set p Classification.prune) res.1,
    protocols := res.2.1 }

end Balancer

/-! ## Claim C1 -/

/-- A 32-byte big-endian ABI word holding the small value `n`. -/
def wordBytes (n : Nat) : Bytes := List.replicate 31 0 ++ [n]

def c1Call : InternalCall :=
  { from_ := 3, to_ := 4, value := 0,
    input := swapExactAmountInSel ++ wordBytes 1 ++ wordBytes 7 ++ wordBytes 2
      ++ wordBytes 8 ++ wordBytes 9,
    call_type := CallType.call, trace_address := [0], protocol := none,
    classification := CallClassification.unknown }

def c1T1 : Transfer := { from_ := 10, to_ := 20, amount := 5, token := 1 }

def c1T2 : Transfer := { from_ := 20, to_ := 11, amount := 6, token := 2 }

def c1Inspection : Inspection :=
  { status := Status.success,
    actions := [Classification.unknown c1Call,
                Classification.known (SpecificAction.transfer c1T1) [0, 0],
                Classification.known (SpecificAction.transfer c1T2) [0, 1]],
    protocols := [] }

/-- C1 counterexample: a Balancer `swapExactAmountIn` call (input token 1,
output token 2) followed by an in-leg transfer and an out-leg transfer with
`in.to == out.from` (the pool, address 20).  The claim's validation
succeeds, so the claim predicts a `Trade` replacing the swap action; the
code additionally requires `out.to == in.from`, which fails here
(11 ≠ 10), so the inspection is left entirely unchanged. -/
theorem claim_c1_counterexample :
    Balancer.decodeSwap c1Call.input = some (1, 7, 2, 8, 9)
    ∧ c1T1.token = 1 ∧ c1T2.token = 2
    ∧ c1T1.to_ = c1T2.from_
    ∧ (Balancer.inspect c1Inspection).actions = c1Inspection.actions := by
  decide

/-- C1 (amended): for a swap action followed by an in-leg transfer (token
equal to the decoded input token) and an out-leg transfer (token equal to
the decoded output token), `Balancer::inspect` replaces the swap action
with `Trade(in, out)` and re-tags both legs `Prune` exactly when BOTH pool
validations `in.to == out.from` AND `out.to == in.from` hold; when either
fails it leaves the classification in place and emits no `Trade`. -/
theorem claim_c1_amended
    (st : Status) (ps : List Protocol) (c : InternalCall) (t1 t2 : Transfer)
    (x y : List Nat) (tin ain tout aout mp : Nat)
    (hdec : Balancer.decodeSwap c.input = some (tin, ain, tout, aout, mp))
    (h1 : t1.token = tin) (h2 : t2.token = tout) (hne : tin ≠ tout) :
    (Balancer.inspect
        { status := st,
          actions := [Classification.unknown c,
                      Classification.known (SpecificAction.transfer t1) x,
                      Classification.known (SpecificAction.transfer t2) y],
          protocols := ps }).actions
      = if t1.from_ = t2.to_ ∧ t2.from_ = t1.to_ then
          [Classification.known (SpecificAction.trade ⟨t1, t2⟩) [],
           Classification.prune, Classification.prune]
        else
          [Classification.unknown c,
           Classification.known (SpecificAction.transfer t1) x,
           Classification.known (SpecificAction.transfer t2) y] := by
  have e1 : (t1.token == tin) = true := by simp [h1]
  have e2 : (t1.token == tout) = false := by
    simp only [h1, beq_eq_false_iff_ne, ne_eq]
    exact hne
  have e3 : (t2.token == tout) = true := by simp [h2]
  have hr : List.range 3 = [0, 1, 2] := rfl
  by_cases hv : t1.from_ = t2.to_ ∧ t2.from_ = t1.to_
  · simp only [Balancer.inspect, hr, List.foldl, Balancer.step, List.get?,
      List.enum, List.enumFrom, List.drop, Classification.as_transfer,
      find_matching, hdec, e1, e2, e3, if_pos hv, if_true, if_false,
      List.set, hv, not_true, false_or, or_false, ite_true, ite_false]
    simp [hv]
  · simp only [Balancer.inspect, hr, List.foldl, Balancer.step, List.get?,
      List.enum, List.enumFrom, List.drop, Classification.as_transfer,
      find_matching, hdec, e1, e2, e3, List.set, if_neg hv]
    have hv' : t1.from_ ≠ t2.to_ ∨ t2.from_ ≠ t1.to_ := by
      rcases not_and_or.mp hv with h | h
      · exact Or.inl h
      · exact Or.inr h
    simp [hv']

def c1T2ok : Transfer := { from_ := 20, to_ := 10, amount := 6, token := 2 }

/-- C1 witness: the amended theorem applied at a concrete swap with both
validations holding. -/
theorem claim_c1_witness :
    (Balancer.inspect
        { status := Status.success,
          actions := [Classification.unknown c1Call,
                      Classification.known (SpecificAction.transfer c1T1) [0, 0],
                      Classification.known (SpecificAction.transfer c1T2ok) [0, 1]],
          protocols := [] }).actions
      = if c1T1.from_ = c1T2ok.to_ ∧ c1T2ok.from_ = c1T1.to_ then
          [Classification.known (SpecificAction.trade ⟨c1T1, c1T2ok⟩) [],
           Classification.prune, Classification.prune]
        else
          [Classification.unknown c1Call,
           Classification.known (SpecificAction.transfer c1T1) [0, 0],
           Classification.known (SpecificAction.transfer c1T2ok) [0, 1]] :=
  claim_c1_amended Status.success [] c1Call c1T1 c1T2ok [0, 0] [0, 1] 1 7 2 8 9
    (by decide) (by decide) (by decide) (by decide)

/-! ## Compound inspector (`src/inspectors/compound.rs`) -/

/-- The Compound inspector: a `cToken → underlying token` map
(`Compound::new` collects it from an iterator of pairs). -/
structure Compound where
  ctoken_to_token : List (Address × Address)
deriving DecidableEq, Repr

namespace Compound

/-- `Compound::underlying`: map a cToken address to its underlying token,
returning the address itself when it is not in the map. -/
def underlying (c : Compound) (a : Address) : Address :=
  match c.ctoken_to_token.lookup a with
  | some inner => inner
  | none => a

def mkLiquidateBorrow : List Nat → Option (Address × U256 × Address)
  | [b, r, col] => some (addrOf b, r, addrOf col)
  | _ => none

/-- `ctoken.decode::<LiquidateBorrow, _>("liquidateBorrow", input)`. -/
def decodeLiquidateBorrow (input : Bytes) : Option (Address × U256 × Address) :=
  match decodeArgs liquidateBorrowSel 3 input with
  | some ws => mkLiquidateBorrow ws
  | none => none

def mkLiquidateBorrowEth : List Nat → Option (Address × Address)
  | [b, col] => some (addrOf b, addrOf col)
  | _ => none

/-- `cether.decode::<LiquidateBorrowEth, _>("liquidateBorrow", input)`. -/
def decodeLiquidateBorrowEth (input : Bytes) : Option (Address × Address) :=
  match decodeArgs liquidateBorrowEthSel 2 input with
  | some ws => mkLiquidateBorrowEth ws
  | none => none

/-- `Compound::classify` (`DefiProtocol` impl): the cEther two-argument
`liquidateBorrow` is tried first, then the cToken three-argument one; both
yield `CallClassification::Liquidation` with no immediate action. -/
def classify (call : InternalCall) :
    Option (CallClassification × Option SpecificAction) :=
  match decodeLiquidateBorrowEth call.input with
  | some _ => some (CallClassification.liquidation, none)
  | none =>
    match decodeLiquidateBorrow call.input with
    | some _ => some (CallClassification.liquidation, none)
    | none => none

/-- `Compound::try_as_liquidation`: on an `Unknown` classification, decode
the call as a cToken `liquidateBorrow` (repay amount from calldata) or as a
cEther `liquidateBorrow` (repay amount is the call value); the produced
`Liquidation` resolves the sent token through the underlying map, keeps the
decoded collateral address as received token, and has received amount 0. -/
def try_as_liquidation (comp : Compound) (cl : Classification) :
    Option (Liquidation × List Nat) :=
  match cl with
  | Classification.unknown call =>
    match decodeLiquidateBorrow call.input with
    | some (liquidated_user, repaid_amount, ctoken_collateral) =>
      some ({ sent_token := comp.underlying call.to_,
              sent_amount := repaid_amount,
              received_token := ctoken_collateral,
              received_amount := 0,
              from_ := call.from_,
              liquidated_user := liquidated_user }, call.trace_address)
    | none =>
      match decodeLiquidateBorrowEth call.input with
      | some (liquidated_user, ctoken_collateral) =>
        some ({ sent_token := comp.underlying call.to_,
                sent_amount := call.value,
                received_token := ctoken_collateral,
                received_amount := 0,
                from_ := call.from_,
                liquidated_user := liquidated_user }, call.trace_address)
      | none => none
  | _ => none

def mkSeizeInternal : List Nat → Option (Address × Address × U256)
  | [_seizertoken, liquidator, borrower, seizetokens] =>
    some (addrOf borrower, addrOf liquidator, seizetokens)
  | _ => none

def mkSeize : List Nat → Option (Address × Address × U256)
  | [liquidator, borrower, seizetokens] =>
    some (addrOf borrower, addrOf liquidator, seizetokens)
  | _ => none

/-- `Compound::try_as_seize`: decode a subtrace as `seizeInternal` or
`seize`, returning `(borrower, liquidator, seize_tokens)`. -/
def try_as_seize (call : InternalCall) : Option (Address × Address × U256) :=
  match decodeArgs seizeInternalSel 4 call.input with
  | some ws => mkSeizeInternal ws
  | none =>
    match decodeArgs seizeSel 3 call.input with
    | some ws => mkSeize ws
    | none => none

/-- `Compound::is_preflight`: an `Unknown` call to the comptroller whose
input starts with the `liquidateBorrowAllowed` selector, or to the price
oracle whose input starts with the `getUnderlyingPrice` selector. -/
def is_preflight (cl : Classification) : Bool :=
  match cl with
  | Classification.unknown call =>
    (call.to_ == COMPTROLLER && call.input.take 4 == liquidateBorrowAllowedSel)
      || (call.to_ == COMP_ORACLE && call.input.take 4 == getUnderlyingPriceSel)
  | _ => false

/-- The call type of an action, as `action.as_call().map(|c| c.call_type)`. -/
def callTypeOf (cl : Classification) : Option CallType :=
  (cl.as_call).map (fun c => c.call_type)

/-- Modelled from the spec: the crate-level `actions_after` helper (in
`src/inspectors/mod.rs`, which is not among the sources) splits the action
list at `i` and exposes the calls of the subsequent actions as the
liquidation's subtraces. -/
def callsAfter (acts : List Classification) (i : Nat) : List InternalCall :=
  (acts.drop (i + 1)).filterMap Classification.as_call

/-- The running state of `Compound::inspect`: the mutated action list, the
protocol set, the transaction status and the `found` flag. -/
structure InspectState where
  actions : List Classification
  protocols : List Protocol
  status : Status
  found : Bool
deriving DecidableEq, Repr

/-- One iteration of the `for i in 0..inspection.actions.len()` loop of
`Compound::inspect` (`impl Inspector for Compound`). -/
def step (comp : Compound) (s : InspectState) (i : Nat) : InspectState :=
  match s.actions.get? i with
  | none => s
  | some cl =>
    match try_as_liquidation comp cl with
    | some (liq, trace) =>
      let prots := insertProtocol s.protocols Protocol.compound
      if callTypeOf cl = some CallType.delegateCall then
        { s with protocols := prots }
      else
        match (callsAfter s.actions i).findSome? try_as_seize with
        | some (_, _, seizetokens) =>
          { actions := s.actions.set i
              (Classification.known
                (SpecificAction.liquidation { liq with received_amount := seizetokens })
                trace),
            protocols := prots,
            status := if s.status = Status.reverted then s.status else Status.success,
            found := true }
        | none => { s with protocols := prots }
    | none =>
      if is_preflight cl ∧ s.found = false then
        { s with
          actions := s.actions.set i
            (Classification.known SpecificAction.liquidationCheck []),
          status := Status.checked }
      else s

/-- `Compound::inspect`: iterate over all action indices. -/
def inspect (comp : Compound) (insp : Inspection) : Inspection :=
  let res := (List.range insp.actions.length).foldl (step comp)
    { actions := insp.actions, protocols := insp.protocols,
      status := insp.status, found := false }
  { status := res.status, actions := res.actions, protocols := res.protocols }

end Compound

/-! ## Claim C2 -/

def c2Comp : Compound := { ctoken_to_token := [(100, 7)] }

def c2LiqCall : InternalCall :=
  { from_ := 50, to_ := 100, value := 0,
    input := liquidateBorrowSel ++ wordBytes 5 ++ wordBytes 60 ++ wordBytes 100,
    call_type := CallType.call, trace_address := [0], protocol := none,
    classification := CallClassification.unknown }

def c2SeizeCall : InternalCall :=
  { from_ := 100, to_ := 100, value := 0,
    input := seizeSel ++ wordBytes 2 ++ wordBytes 5 ++ wordBytes 123,
    call_type := CallType.call, trace_address := [0, 0], protocol := none,
    classification := CallClassification.unknown }

def c2Inspection : Inspection :=
  { status := Status.success,
    actions := [Classification.unknown c2LiqCall, Classification.unknown c2SeizeCall],
    protocols := [] }

/-- C2 counterexample: a cToken `liquidateBorrow` on market 100 (whose
underlying is 7 in the map) with cToken collateral 100 and a matching
`seize` subcall of 123 tokens.  The claim predicts
`received_token = underlying(100) = 7`; the code keeps the decoded cToken
collateral address 100 as received token (only the SENT token is resolved
through the map). -/
theorem claim_c2_counterexample :
    Compound.underlying c2Comp 100 = 7
    ∧ (Compound.inspect c2Comp c2Inspection).actions.get? 0
        = some (Classification.known
            (SpecificAction.liquidation
              { sent_token := 7, sent_amount := 60,
                received_token := 100, received_amount := 123,
                from_ := 50, liquidated_user := 5 }) [0])
    ∧ (100 : Address) ≠ 7 := by
  decide

/-- C2 (amended): for a call that decodes as a Compound `liquidateBorrow`
liquidation (and is not a `DelegateCall`), the emitted `Liquidation`'s
`received_amount` equals the seize-token amount of the matching `seize` or
`seizeInternal` subcall, its SENT token is resolved through the
cToken-to-underlying map, its `received_token` is the decoded cToken
collateral address (NOT resolved through the map), and an orphan
liquidation with no matching seize subcall produces no completed
`Liquidation` (the action list is unchanged). -/
theorem claim_c2_amended
    (comp : Compound) (st : Status) (ps : List Protocol) (c1 c2 : InternalCall)
    (b : Address) (r : U256) (col : Address)
    (hdec : Compound.decodeLiquidateBorrow c1.input = some (b, r, col))
    (hct : c1.call_type ≠ CallType.delegateCall)
    (hnp : Compound.is_preflight (Classification.unknown c2) = false) :
    (Compound.inspect comp
        { status := st,
          actions := [Classification.unknown c1, Classification.unknown c2],
          protocols := ps }).actions
      = match Compound.try_as_seize c2 with
        | some (_, _, seizetokens) =>
          [Classification.known
            (SpecificAction.liquidation
              { sent_token := comp.underlying c1.to_, sent_amount := r,
                received_token := col, received_amount := seizetokens,
                from_ := c1.from_, liquidated_user := b }) c1.trace_address,
           Classification.unknown c2]
        | none => [Classification.unknown c1, Classification.unknown c2] := by
  have hr : List.range 2 = [0, 1] := rfl
  have hdel : Compound.callTypeOf (Classification.unknown c1)
      = some c1.call_type := rfl
  cases hs : Compound.try_as_seize c2 with
  | some v =>
    obtain ⟨ba, ⟨la, amt⟩⟩ := v
    simp only [Compound.inspect, hr, List.foldl, Compound.step, List.get?,
      Compound.try_as_liquidation, hdec, hdel, Compound.callsAfter,
      List.drop, List.filterMap, Classification.as_call, List.findSome?,
      hs, hnp, List.set, Option.some.injEq, Bool.false_eq_true,
      false_and, if_false, ite_false]
    simp [hct, hnp]
    split <;> rfl
  | none =>
    simp only [Compound.inspect, hr, List.foldl, Compound.step, List.get?,
      Compound.try_as_liquidation, hdec, hdel, Compound.callsAfter,
      List.drop, List.filterMap, Classification.as_call, List.findSome?,
      hs, hnp, List.set]
    simp [hct, hnp]
    split <;> rfl

/-- C2 witness: the amended theorem applied at the concrete liquidation
with a matching `seize` subcall. -/
theorem claim_c2_witness :
    (Compound.inspect c2Comp
        { status := Status.success,
          actions := [Classification.unknown c2LiqCall,
                      Classification.unknown c2SeizeCall],
          protocols := [] }).actions
      = match Compound.try_as_seize c2SeizeCall with
        | some (_, _, seizetokens) =>
          [Classification.known
            (SpecificAction.liquidation
              { sent_token := c2Comp.underlying c2LiqCall.to_, sent_amount := 60,
                received_token := 100, received_amount := seizetokens,
                from_ := c2LiqCall.from_, liquidated_user := 5 }) c2LiqCall.trace_address,
           Classification.unknown c2SeizeCall]
        | none => [Classification.unknown c2LiqCall, Classification.unknown c2SeizeCall] :=
  claim_c2_amended c2Comp Status.success [] c2LiqCall c2SeizeCall 5 60 100
    (by decide) (by decide) (by decide)

/-! ## Claim C3 -/

def comp0 : Compound := { ctoken_to_token := [] }

def c3PreflightCall : InternalCall :=
  { from_ := 42, to_ := COMPTROLLER, value := 0,
    input := liquidateBorrowAllowedSel,
    call_type := CallType.call, trace_address := [0], protocol := none,
    classification := CallClassification.unknown }

def c3Inspection : Inspection :=
  { status := Status.reverted,
    actions := [Classification.unknown c3PreflightCall],
    protocols := [] }

/-- C3 counterexample: a reverted transaction containing a single
comptroller `liquidateBorrowAllowed` pre-flight call and no liquidation.
The claim says a `Reverted` status is never overwritten by `Checked`, but
`Compound::inspect` sets `Status::Checked` unconditionally in the
pre-flight branch, overwriting `Reverted`. -/
theorem claim_c3_counterexample :
    c3Inspection.status = Status.reverted
    ∧ Compound.is_preflight (Classification.unknown c3PreflightCall) = true
    ∧ (Compound.inspect comp0 c3Inspection).status = Status.checked := by
  decide

/-- C3 (amended): the per-action status transition of `Compound::inspect`
is "Success wins once, Reverted is sticky against Success, else Checked —
but Checked is NOT blocked by Reverted": (1) a non-DelegateCall
liquidation with a matching seize subcall sets `Success` unless the status
is currently `Reverted`, which it never overwrites; (2) a pre-flight with
no previously found successful liquidation sets `Checked` unconditionally,
even over `Reverted`; (3) after a successful liquidation has been found,
a pre-flight leaves the status unchanged; (4) a `DelegateCall` liquidation
leaves the status unchanged. -/
theorem claim_c3_amended
    (comp : Compound) (s : Compound.InspectState) (i : Nat) (cl : Classification)
    (hget : s.actions.get? i = some cl) :
    ((Compound.try_as_liquidation comp cl).isSome →
      Compound.callTypeOf cl ≠ some CallType.delegateCall →
      ((Compound.callsAfter s.actions i).findSome? Compound.try_as_seize).isSome →
      (Compound.step comp s i).status
        = if s.status = Status.reverted then Status.reverted else Status.success)
    ∧ (Compound.try_as_liquidation comp cl = none →
      Compound.is_preflight cl = true → s.found = false →
      (Compound.step comp s i).status = Status.checked)
    ∧ (Compound.try_as_liquidation comp cl = none →
      Compound.is_preflight cl = true → s.found = true →
      (Compound.step comp s i).status = s.status)
    ∧ ((Compound.try_as_liquidation comp cl).isSome →
      Compound.callTypeOf cl = some CallType.delegateCall →
      (Compound.step comp s i).status = s.status) := by
  have hget' : s.actions[i]? = some cl := by
    rw [← List.get?_eq_getElem?]
    exact hget
  refine ⟨?_, ?_, ?_, ?_⟩
  · intro h1 h2 h3
    obtain ⟨⟨liq, tr⟩, hliq⟩ := Option.isSome_iff_exists.mp h1
    obtain ⟨⟨ba, la, amt⟩, hs⟩ := Option.isSome_iff_exists.mp h3
    simp only [Compound.step, hget, hliq, hs, if_neg h2]
    by_cases hrv : s.status = Status.reverted
    · simp [hrv]
    · simp [hrv]
  · intro h1 h2 h3
    simp [Compound.step, hget, hget', h1, h2, h3]
  · intro h1 h2 h3
    simp [Compound.step, hget, hget', h1, h2, h3]
  · intro h1 h2
    obtain ⟨⟨liq, tr⟩, hliq⟩ := Option.isSome_iff_exists.mp h1
    simp [Compound.step, hget, hget', hliq, h2]

/-- C3 witness: the pre-flight conjunct of the amended theorem applied at
the concrete reverted single-pre-flight state: the status becomes
`Checked` even though it was `Reverted`. -/
theorem claim_c3_witness :
    (Compound.step comp0
        { actions := [Classification.unknown c3PreflightCall],
          protocols := [], status := Status.reverted, found := false } 0).status
      = Status.checked :=
  (claim_c3_amended comp0
      { actions := [Classification.unknown c3PreflightCall],
        protocols := [], status := Status.reverted, found := false } 0
      (Classification.unknown c3PreflightCall) (by decide)).2.1
    (by decide) (by decide) (by decide)

/-! ## Claim C7 -/

/-- A `Compound::inspect` loop iteration only mutates the action slot at
its own index. -/
theorem compound_step_get_ne (comp : Compound) (s : Compound.InspectState)
    (j i : Nat) (h : j ≠ i) :
    (Compound.step comp s j).actions.get? i = s.actions.get? i := by
  unfold Compound.step
  cases hj : s.actions.get? j with
  | none => rfl
  | some cl =>
    cases hLiq : Compound.try_as_liquidation comp cl with
    | some v =>
      obtain ⟨liq, tr⟩ := v
      by_cases hd : Compound.callTypeOf cl = some CallType.delegateCall
      · simp [hLiq, hd]
      · simp only [hLiq, if_neg hd]
        cases hs : (Compound.callsAfter s.actions j).findSome? Compound.try_as_seize with
        | some w =>
          obtain ⟨ba, la, amt⟩ := w
          simp [hs, List.getElem?_set_ne h]
        | none => simp [hs]
    | none =>
      by_cases hp : Compound.is_preflight cl = true ∧ s.found = false
      · simp [hLiq, hp, List.getElem?_set_ne h]
      · simp [hLiq, hp]

/-- A `DelegateCall` liquidation entry survives any `Compound::inspect`
loop iteration unchanged. -/
theorem compound_step_preserves_delegate (comp : Compound) (c : InternalCall)
    (i : Nat)
    (hliq : (Compound.try_as_liquidation comp (Classification.unknown c)).isSome)
    (hdel : c.call_type = CallType.delegateCall) :
    ∀ (s : Compound.InspectState) (j : Nat),
      s.actions.get? i = some (Classification.unknown c) →
      (Compound.step comp s j).actions.get? i
        = some (Classification.unknown c) := by
  intro s j hP
  by_cases hji : j = i
  · subst hji
    obtain ⟨⟨liq, tr⟩, hl⟩ := Option.isSome_iff_exists.mp hliq
    have hd : Compound.callTypeOf (Classification.unknown c)
        = some CallType.delegateCall := by
      simp [Compound.callTypeOf, Classification.as_call, hdel]
    simp only [Compound.step, hP, hl, hd, if_pos rfl]
    exact hP
  · rw [compound_step_get_ne comp s j i hji]
    exact hP

theorem compound_foldl_preserves_delegate (comp : Compound) (c : InternalCall)
    (i : Nat)
    (hliq : (Compound.try_as_liquidation comp (Classification.unknown c)).isSome)
    (hdel : c.call_type = CallType.delegateCall) :
    ∀ (l : List Nat) (s : Compound.InspectState),
      s.actions.get? i = some (Classification.unknown c) →
      (l.foldl (Compound.step comp) s).actions.get? i
        = some (Classification.unknown c) := by
  intro l
  induction l with
  | nil => intro s hP; exact hP
  | cons j rest ih =>
    intro s hP
    exact ih _ (compound_step_preserves_delegate comp c i hliq hdel s j hP)

/-- C7: a call that decodes as a Compound `liquidateBorrow` liquidation
but whose call type is `DelegateCall` is skipped by `Compound::inspect`:
its action slot is left entirely unclassified, so no (second) completed
`Liquidation` action is ever produced for it, whatever else (for example
a regular liquidation of the same transaction) the inspection contains. -/
theorem claim_c7_delegatecall_skipped (comp : Compound) (insp : Inspection)
    (i : Nat) (c : InternalCall)
    (hget : insp.actions.get? i = some (Classification.unknown c))
    (hliq : (Compound.try_as_liquidation comp (Classification.unknown c)).isSome)
    (hdel : c.call_type = CallType.delegateCall) :
    (Compound.inspect comp insp).actions.get? i
      = some (Classification.unknown c) := by
  unfold Compound.inspect
  exact compound_foldl_preserves_delegate comp c i hliq hdel _ _ hget

def c7DelegateCall : InternalCall :=
  { from_ := 50, to_ := 100, value := 0,
    input := liquidateBorrowSel ++ wordBytes 5 ++ wordBytes 60 ++ wordBytes 100,
    call_type := CallType.delegateCall, trace_address := [1], protocol := none,
    classification := CallClassification.unknown }

/-- C7 witness: a `DelegateCall` liquidation appearing alongside a regular
liquidation (with its seize subcall) stays unclassified. -/
theorem claim_c7_witness :
    (Compound.inspect c2Comp
        { status := Status.success,
          actions := [Classification.unknown c2LiqCall,
                      Classification.unknown c7DelegateCall,
                      Classification.unknown c2SeizeCall],
          protocols := [] }).actions.get? 1
      = some (Classification.unknown c7DelegateCall) :=
  claim_c7_delegatecall_skipped c2Comp
    { status := Status.success,
      actions := [Classification.unknown c2LiqCall,
                  Classification.unknown c7DelegateCall,
                  Classification.unknown c2SeizeCall],
      protocols := [] } 1 c7DelegateCall (by decide) (by decide) (by decide)

/-! ## Claim C9 -/

theorem decodeArgs_eq_none_of_sel (sel : Bytes) (n : Nat) (input : Bytes)
    (h : input.take 4 ≠ sel) : decodeArgs sel n input = none := by
  simp [decodeArgs, h]

theorem decodeArgs_eq_none_of_short (sel : Bytes) (n : Nat) (input : Bytes)
    (h : input.length < 4 + 32 * n) : decodeArgs sel n input = none := by
  have : ¬(4 + 32 * n ≤ input.length) := by omega
  simp [decodeArgs, this]

/-- C9: the two registered decoders' classification entry points are total
functions into `Option`: a failed decode is the normal negative result
`none` (never an exception), and on adversarially malformed input — too
few bytes for the argument tuple, or a selector that matches no protocol
function — they return `none`; on any input whatsoever the result is
`none` or the protocol's fixed classification. -/
theorem claim_c9_classify_total (c : InternalCall) :
    ((c.input.take 4 ≠ swapExactAmountInSel ∧ c.input.take 4 ≠ swapExactAmountOutSel)
        ∨ c.input.length < 164 →
      Balancer.classify_call c = none)
    ∧ ((c.input.take 4 ≠ liquidateBorrowEthSel ∧ c.input.take 4 ≠ liquidateBorrowSel)
        ∨ c.input.length < 68 →
      Compound.classify c = none)
    ∧ (Balancer.classify_call c = none
        ∨ Balancer.classify_call c = some CallClassification.swap)
    ∧ (Compound.classify c = none
        ∨ Compound.classify c = some (CallClassification.liquidation, none)) := by
  refine ⟨?_, ?_, ?_, ?_⟩
  · intro h
    have e1 : decodeArgs swapExactAmountInSel 5 c.input = none := by
      rcases h with ⟨h1, _⟩ | h3
      · exact decodeArgs_eq_none_of_sel _ _ _ h1
      · exact decodeArgs_eq_none_of_short _ _ _ (by omega)
    have e2 : decodeArgs swapExactAmountOutSel 5 c.input = none := by
      rcases h with ⟨_, h2⟩ | h3
      · exact decodeArgs_eq_none_of_sel _ _ _ h2
      · exact decodeArgs_eq_none_of_short _ _ _ (by omega)
    simp [Balancer.classify_call, Balancer.decodeSwap, e1, e2]
  · intro h
    have e1 : decodeArgs liquidateBorrowEthSel 2 c.input = none := by
      rcases h with ⟨h1, _⟩ | h3
      · exact decodeArgs_eq_none_of_sel _ _ _ h1
      · exact decodeArgs_eq_none_of_short _ _ _ (by omega)
    have e2 : decodeArgs liquidateBorrowSel 3 c.input = none := by
      rcases h with ⟨_, h2⟩ | h3
      · exact decodeArgs_eq_none_of_sel _ _ _ h2
      · exact decodeArgs_eq_none_of_short _ _ _ (by omega)
    simp [Compound.classify, Compound.decodeLiquidateBorrow,
      Compound.decodeLiquidateBorrowEth, e1, e2]
  · unfold Balancer.classify_call
    cases Balancer.decodeSwap c.input with
    | none => exact Or.inl rfl
    | some v => exact Or.inr rfl
  · unfold Compound.classify
    cases he : Compound.decodeLiquidateBorrowEth c.input with
    | some v => obtain ⟨a, b⟩ := v; exact Or.inr rfl
    | none =>
      cases ht : Compound.decodeLiquidateBorrow c.input with
      | some v => obtain ⟨a, b, d⟩ := v; exact Or.inr rfl
      | none => exact Or.inl rfl

def c9MalformedCall : InternalCall :=
  { from_ := 1, to_ := 2, value := 0, input := [0x82, 0x01, 0xaa],
    call_type := CallType.call, trace_address := [], protocol := none,
    classification := CallClassification.unknown }

/-- C9 witness: on a three-byte (truncated-selector) input both decoders
return the negative result. -/
theorem claim_c9_witness :
    Balancer.classify_call c9MalformedCall = none
    ∧ Compound.classify c9MalformedCall = none :=
  ⟨(claim_c9_classify_total c9MalformedCall).1 (Or.inl ⟨by decide, by decide⟩),
   (claim_c9_classify_total c9MalformedCall).2.1 (Or.inl ⟨by decide, by decide⟩)⟩

/-! ## Decoder registry (`src/traits.rs`, `src/inspectors/batch.rs`) -/

/-- One registered protocol decoder: the capability subset of
`DefiProtocol` that `DefiProtocol::inspect` consumes
(`is_protocol`, `classify_call` and the protocol tag). -/
structure Decoder where
  is_protocol : Address → Option Bool
  classify_call : InternalCall → Option CallClassification
  tag : Protocol

/-- The per-call body of `DefiProtocol::inspect` (src/traits.rs): when the
address gate `is_protocol(call.to).unwrap_or(true)` passes and
`classify_call` succeeds, the call is annotated with the decoder's
protocol tag and the returned classification. -/
def Decoder.classifyOne (d : Decoder) (c : InternalCall) : InternalCall :=
  if c.classification = CallClassification.unknown then
    if (d.is_protocol c.to_).getD true then
      match d.classify_call c with
      | some cl => { c with protocol := some d.tag, classification := cl }
      | none => c
    else c
  else c

/-- `DefiProtocol::inspect`: run one decoder over the transaction's calls.
Modelled from the spec for the part outside the sources: `tx.calls_mut()`
(in the missing `src/model.rs`) iterates, per its doc comment, over all
calls "that are not processed yet", i.e. those still classified
`Unknown`. -/
def Decoder.inspect_tx (d : Decoder) (calls : List InternalCall) : List InternalCall :=
  calls.map d.classifyOne

/-- `BatchInspector::inspect_tx` (src/inspectors/batch.rs): run every
registered decoder, in registry order, over the transaction. -/
def BatchInspector.inspect_tx (ds : List Decoder) (calls : List InternalCall) :
    List InternalCall :=
  ds.foldl (fun t d => d.inspect_tx t) calls

/-- The first decoder in registry order that passes the address gate and
classifies the call, together with its classification. -/
def firstClaim (ds : List Decoder) (c : InternalCall) :
    Option (Protocol × CallClassification) :=
  match ds with
  | [] => none
  | d :: rest =>
    if (d.is_protocol c.to_).getD true then
      match d.classify_call c with
      | some cl => some (d.tag, cl)
      | none => firstClaim rest c
    else firstClaim rest c

/-- The specification's reading of classification: an unclassified call is
annotated by exactly the first decoder that claims it. -/
def applyClaim (ds : List Decoder) (c : InternalCall) : InternalCall :=
  if c.classification = CallClassification.unknown then
    match firstClaim ds c with
    | some (t, cl) => { c with protocol := some t, classification := cl }
    | none => c
  else c

theorem applyClaim_cons (d : Decoder) (rest : List Decoder) (c : InternalCall)
    (hd : ∀ c', d.classify_call c' ≠ some CallClassification.unknown) :
    applyClaim rest (d.classifyOne c) = applyClaim (d :: rest) c := by
  by_cases hu : c.classification = CallClassification.unknown
  · by_cases hg : (d.is_protocol c.to_).getD true
    · cases hc : d.classify_call c with
      | some cl =>
        have hcl : cl ≠ CallClassification.unknown := by
          intro he
          exact hd c (he ▸ hc)
        simp [applyClaim, Decoder.classifyOne, firstClaim, hu, hg, hc, hcl]
      | none =>
        simp [applyClaim, Decoder.classifyOne, firstClaim, hu, hg, hc]
    · simp [applyClaim, Decoder.classifyOne, firstClaim, hu, hg]
  · simp [applyClaim, Decoder.classifyOne, hu]

/-- C4: for every internal call and the registered decoder sequence,
`BatchInspector::inspect_tx` classifies exactly as first-claim-wins: a
decoder whose `is_protocol_address(call.to)` is `Some(false)` is skipped
for that call, otherwise (`Some(true)` or `None`) its `classify_call`
runs, a successful classification annotates the call with the decoder's
protocol tag and the returned classification, and once a decoder has
claimed a call no later decoder runs on it.  (Hypothesis: decoders never
return the neutral `Unknown` tag as a successful classification.) -/
theorem claim_c4_first_claim_wins :
    ∀ (ds : List Decoder),
      (∀ d ∈ ds, ∀ c, d.classify_call c ≠ some CallClassification.unknown) →
      ∀ calls, BatchInspector.inspect_tx ds calls = calls.map (applyClaim ds) := by
  intro ds
  induction ds with
  | nil =>
    intro _ calls
    have h : ∀ c, applyClaim [] c = c := by
      intro c
      simp [applyClaim, firstClaim]
    have h2 : applyClaim [] = id := funext h
    simp [BatchInspector.inspect_tx, h2]
  | cons d rest ih =>
    intro hnu calls
    have hd : ∀ c', d.classify_call c' ≠ some CallClassification.unknown :=
      hnu d (by simp)
    have hrest : ∀ d' ∈ rest, ∀ c, d'.classify_call c ≠ some CallClassification.unknown :=
      fun d' hm => hnu d' (by simp [hm])
    have h1 : BatchInspector.inspect_tx (d :: rest) calls
        = BatchInspector.inspect_tx rest (d.inspect_tx calls) := rfl
    rw [h1, ih hrest, Decoder.inspect_tx, List.map_map]
    exact List.map_congr_left (fun c _ => applyClaim_cons d rest c hd)

def c4DecoderA : Decoder :=
  { is_protocol := fun a => some (a == 5),
    classify_call := fun c => if c.to_ == 5 then some CallClassification.swap else none,
    tag := Protocol.balancer }

def c4DecoderB : Decoder :=
  { is_protocol := fun _ => none,
    classify_call := fun c =>
      if c.input.take 4 == liquidateBorrowSel then some CallClassification.liquidation else none,
    tag := Protocol.compound }

def c4Call : InternalCall :=
  { from_ := 1, to_ := 5, value := 0,
    input := liquidateBorrowSel ++ wordBytes 5 ++ wordBytes 60 ++ wordBytes 100,
    call_type := CallType.call, trace_address := [], protocol := none,
    classification := CallClassification.unknown }

/-- C4 witness: with two concrete registered decoders that both match the
concrete call, the batch classification equals the first-claim-wins
semantics (the first decoder's tag wins). -/
theorem claim_c4_witness :
    BatchInspector.inspect_tx [c4DecoderA, c4DecoderB] [c4Call]
      = [c4Call].map (applyClaim [c4DecoderA, c4DecoderB]) :=
  claim_c4_first_claim_wins [c4DecoderA, c4DecoderB]
    (by
      intro d hd c
      rcases List.mem_cons.mp hd with rfl | hd'
      · simp only [c4DecoderA]
        split <;> simp
      · rcases List.mem_cons.mp hd' with rfl | hd''
        · simp only [c4DecoderB]
          split <;> simp
        · simp at hd'')
    [c4Call]

/-! ## Batch evaluator (`src/inspectors/batch.rs`)

The `BatchEvaluator` stream is a hand-written state machine over three
sub-streams: the `buffer_unordered(max)` block-fetch stage, the
`FuturesUnordered` evaluation pool, and the FIFO waiting queue.  The
asynchronous environment is supplied explicitly: every future carries the
number of polls it still needs before resolving, and an `Oracle` says how
each queued evaluation behaves.  The synchronous inspector/reducer passes
do not change a transaction's identity (hash, block number), which is all
the pipeline claims observe. -/

/-- The per-transaction value flowing through the pipeline (the identity
of a materialized `TransactionData`). -/
structure TxData where
  hash : Nat
  blockNumber : Nat
deriving DecidableEq, Repr

/-- Modelled from the spec: one group of traces sharing a transaction
hash, paired with the outcome of the fallible `TransactionData::create`
(whose definition lives outside the given sources); `none` models a
failed create. -/
structure TxGroup where
  hash : Nat
  create : Option TxData
deriving DecidableEq, Repr

/-- `BatchEvaluationError`: `NotFound`, per-transaction `Evaluation`
errors, and per-block fetch errors. -/
inductive BEError
| notFound (blockNumber : Nat)
| evaluation (blockNumber : Nat) (hash : Nat)
| block (blockNumber : Nat)
deriving DecidableEq, Repr

instance {e a : Type} [DecidableEq e] [DecidableEq a] : DecidableEq (Except e a) :=
  fun x y =>
    match x, y with
    | Except.ok u, Except.ok v =>
      if h : u = v then isTrue (by rw [h]) else isFalse (by
        intro he
        cases he
        exact h rfl)
    | Except.error u, Except.error v =>
      if h : u = v then isTrue (by rw [h]) else isFalse (by
        intro he
        cases he
        exact h rfl)
    | Except.ok _, Except.error _ => isFalse (by intro he; cases he)
    | Except.error _, Except.ok _ => isFalse (by intro he; cases he)

/-- One buffered `get_block_info` future: the number of further polls it
needs, and its result (the block's trace groups, or a fetch error). -/
structure FetchTask where
  delay : Nat
  result : Except BEError (List TxGroup)
deriving DecidableEq, Repr

/-- One future of the `FuturesUnordered` evaluation pool: the transaction
under evaluation, the polls it still needs, and whether `Evaluation::new`
succeeds (`false` models an `EvalError`). -/
structure EvalJob where
  tx : TxData
  delay : Nat
  ok : Bool
deriving DecidableEq, Repr

/-- Behaviour of the price-oracle-backed evaluation futures. -/
structure Oracle where
  evalDelay : TxData → Nat
  evalOk : TxData → Bool

/-- `BatchEvaluator::queue_in_evaluation` builds one evaluation future. -/
def mkJob (o : Oracle) (tx : TxData) : EvalJob :=
  { tx := tx, delay := o.evalDelay tx, ok := o.evalOk tx }

/-- The fields of `BatchEvaluator`. -/
structure BEState where
  pendingBlocks : List FetchTask
  inflightBlocks : List FetchTask
  evalQueue : List EvalJob
  waiting : List TxData
  max : Nat
  blocksDone : Bool
deriving Repr

/-- Remove the first element satisfying `p` (the future that resolves on
this poll), returning it and the remaining list. -/
def splitFirstReady {α : Type} (p : α → Bool) : List α → Option (α × List α)
  | [] => none
  | t :: rest =>
    if p t then some (t, rest)
    else
      match splitFirstReady p rest with
      | some (r, rest') => some (r, t :: rest')
      | none => none

inductive BlockPoll
| ready (r : Except BEError (List TxGroup))
| pending
| done
deriving DecidableEq, Repr

def tickFetch (t : FetchTask) : FetchTask := { t with delay := t.delay - 1 }

/-- One poll of the `buffer_unordered(max)` block stream: start pending
fetches up to the `max` in-flight bound, then yield a resolved fetch, or
report exhaustion, or make progress and stay pending. -/
def pollBlockInfos (m : Nat) (pend infl : List FetchTask) :
    BlockPoll × List FetchTask × List FetchTask :=
  let k := m - infl.length
  let infl2 := infl ++ pend.take k
  let pend2 := pend.drop k
  match splitFirstReady (fun t => t.delay == 0) infl2 with
  | some (t, rest) => (BlockPoll.ready t.result, pend2, rest)
  | none =>
    if infl2.isEmpty && pend2.isEmpty then (BlockPoll.done, pend2, infl2)
    else (BlockPoll.pending, pend2, infl2.map tickFetch)

inductive EvalPoll
| item (r : Except BEError TxData)
| empty
| pending
deriving DecidableEq, Repr

def jobOutcome (j : EvalJob) : Except BEError TxData :=
  if j.ok then Except.ok j.tx
  else Except.error (BEError.evaluation j.tx.blockNumber j.tx.hash)

def tickJob (j : EvalJob) : EvalJob := { j with delay := j.delay - 1 }

/-- One poll of the `FuturesUnordered` evaluation pool: `Ready(None)` on
an empty pool, a resolved evaluation if one is ready, else `Pending`. -/
def pollEvalQueue (q : List EvalJob) : EvalPoll × List EvalJob :=
  if q.isEmpty then (EvalPoll.empty, q)
  else
    match splitFirstReady (fun j => j.delay == 0) q with
    | some (j, rest) => (EvalPoll.item (jobOutcome j), rest)
    | none => (EvalPoll.pending, q.map tickJob)

/-- The first `while` loop of `poll_next`: move waiting inspections into
the evaluation pool while it holds fewer than `max` futures. -/
def drainWaiting (o : Oracle) (s : BEState) : BEState :=
  let n := min (s.max - s.evalQueue.length) s.waiting.length
  { s with evalQueue := s.evalQueue ++ (s.waiting.take n).map (mkJob o),
           waiting := s.waiting.drop n }

/-- The `for mut tx in traces.group_by(tx_hash).filter_map(create)` body:
transactions whose `TransactionData::create` fails are silently skipped;
the rest are queued into the pool while it has room and pushed onto the
waiting queue otherwise. -/
def pgStep (o : Oracle) (s : BEState) (g : TxGroup) : BEState :=
  match g.create with
  | none => s
  | some tx =>
    if s.evalQueue.length < s.max then
      { s with evalQueue := s.evalQueue ++ [mkJob o tx] }
    else
      { s with waiting := s.waiting ++ [tx] }

def processGroups (o : Oracle) (s : BEState) (gs : List TxGroup) : BEState :=
  gs.foldl (pgStep o) s

inductive LoopOut
| emit (e : BEError)
| through
deriving DecidableEq, Repr

/-- The second `while` loop of `poll_next`: while the pool has room, poll
the block stream; a fetched block is classified and queued, a fetch error
is returned as a stream item, `Pending` breaks, exhaustion sets
`blocks_done`.  The fuel is an upper bound on the loop trips (one fetch
task is consumed per continuing iteration). -/
def blockLoop (o : Oracle) : Nat → BEState → LoopOut × BEState
  | 0, s => (LoopOut.through, s)
  | fuel + 1, s =>
    if s.evalQueue.length < s.max then
      let r := pollBlockInfos s.max s.pendingBlocks s.inflightBlocks
      let s2 := { s with pendingBlocks := r.2.1, inflightBlocks := r.2.2 }
      match r.1 with
      | BlockPoll.ready (Except.ok gs) => blockLoop o fuel (processGroups o s2 gs)
      | BlockPoll.ready (Except.error e) => (LoopOut.emit e, s2)
      | BlockPoll.pending => (LoopOut.through, s2)
      | BlockPoll.done => (LoopOut.through, { s2 with blocksDone := true })
    else (LoopOut.through, s)

inductive PollOut
| item (r : Except BEError TxData)
| pending
| complete
deriving DecidableEq, Repr

/-- `BatchEvaluator::poll_next`: drain the waiting queue into the pool,
pull blocks while the pool has room, advance the pool, emit any ready
evaluation, and report end-of-stream exactly when the block stream is
done and pool and queue are empty. -/
def pollNext (o : Oracle) (s : BEState) : PollOut × BEState :=
  let s1 := drainWaiting o s
  let b := blockLoop o (s1.pendingBlocks.length + s1.inflightBlocks.length + 1) s1
  match b.1 with
  | LoopOut.emit e => (PollOut.item (Except.error e), b.2)
  | LoopOut.through =>
    let q := pollEvalQueue b.2.evalQueue
    match q.1 with
    | EvalPoll.item r => (PollOut.item r, { b.2 with evalQueue := q.2 })
    | EvalPoll.pending => (PollOut.pending, { b.2 with evalQueue := q.2 })
    | EvalPoll.empty =>
      if b.2.blocksDone && b.2.evalQueue.isEmpty && b.2.waiting.isEmpty then
        (PollOut.complete, b.2)
      else (PollOut.pending, b.2)

/-- The stream state created by `BatchEvaluator::new` for a block range:
one fetch task per block, everything else empty. -/
def BEState.init (tasks : List FetchTask) (m : Nat) : BEState :=
  { pendingBlocks := tasks, inflightBlocks := [], evalQueue := [],
    waiting := [], max := m, blocksDone := false }

/-- Poll the stream to completion (with fuel), collecting emitted items;
the boolean reports whether end-of-stream was reached. -/
def drain (o : Oracle) : Nat → BEState → List (Except BEError TxData) × Bool
  | 0, _ => ([], false)
  | fuel + 1, s =>
    match pollNext o s with
    | (PollOut.complete, _) => ([], true)
    | (PollOut.item r, s2) =>
      let d := drain o fuel s2
      (r :: d.1, d.2)
    | (PollOut.pending, s2) => drain o fuel s2

/-! ## Claim C5 -/

def c5Oracle : Oracle := { evalDelay := fun _ => 5, evalOk := fun _ => true }

def c5Task : FetchTask :=
  { delay := 0,
    result := Except.ok [{ hash := 1, create := some { hash := 1, blockNumber := 1 } },
                         { hash := 2, create := some { hash := 2, blockNumber := 1 } },
                         { hash := 3, create := some { hash := 3, blockNumber := 1 } }] }

/-- C5 counterexample: a stream with concurrency cap `max = 1` over one
block containing three transactions.  After a single poll the evaluation
pool holds 1 future and the waiting queue 2 transactions, so pending
evaluations (pool plus queue) plus in-flight fetches is 3 > 2 = 2*max:
the waiting queue is unbounded and the claimed invariant fails. -/
theorem claim_c5_counterexample :
    2 * (BEState.init [c5Task] 1).max
      < (pollNext c5Oracle (BEState.init [c5Task] 1)).2.evalQueue.length
        + (pollNext c5Oracle (BEState.init [c5Task] 1)).2.waiting.length
        + (pollNext c5Oracle (BEState.init [c5Task] 1)).2.inflightBlocks.length := by
  decide

theorem splitFirstReady_perm {α : Type} (p : α → Bool) :
    ∀ (l : List α) (t : α) (rest : List α),
      splitFirstReady p l = some (t, rest) → l.Perm (t :: rest) := by
  intro l
  induction l with
  | nil =>
    intro t rest h
    simp [splitFirstReady] at h
  | cons a as ih =>
    intro t rest h
    unfold splitFirstReady at h
    by_cases hp : p a
    · rw [if_pos hp] at h
      cases h
      exact List.Perm.refl _
    · rw [if_neg hp] at h
      cases hs : splitFirstReady p as with
      | none =>
        rw [hs] at h
        cases h
      | some pr =>
        obtain ⟨r, rest'⟩ := pr
        rw [hs] at h
        injection h with h1
        injection h1 with h2 h3
        subst h2
        subst h3
        exact (List.Perm.cons a (ih r rest' hs)).trans (List.Perm.swap r a rest')

/-- The invariant behind the (amended) backpressure bound: the evaluation
pool and the in-flight fetch set each hold at most `max` futures. -/
def inflightInv (s : BEState) : Prop :=
  s.evalQueue.length ≤ s.max ∧ s.inflightBlocks.length ≤ s.max

theorem drainWaiting_fields (o : Oracle) (s : BEState) :
    (drainWaiting o s).pendingBlocks = s.pendingBlocks
    ∧ (drainWaiting o s).inflightBlocks = s.inflightBlocks
    ∧ (drainWaiting o s).max = s.max
    ∧ (drainWaiting o s).blocksDone = s.blocksDone := by
  simp [drainWaiting]

theorem drainWaiting_queue_le (o : Oracle) (s : BEState)
    (h : s.evalQueue.length ≤ s.max) :
    (drainWaiting o s).evalQueue.length ≤ s.max := by
  simp only [drainWaiting, List.length_append, List.length_map, List.length_take]
  omega

theorem pgStep_inv (o : Oracle) (s : BEState) (g : TxGroup) :
    (pgStep o s g).max = s.max
    ∧ (pgStep o s g).pendingBlocks = s.pendingBlocks
    ∧ (pgStep o s g).inflightBlocks = s.inflightBlocks
    ∧ (pgStep o s g).blocksDone = s.blocksDone
    ∧ (s.evalQueue.length ≤ s.max → (pgStep o s g).evalQueue.length ≤ s.max) := by
  unfold pgStep
  cases g.create with
  | none => simp
  | some tx =>
    by_cases h : s.evalQueue.length < s.max
    · simp [h]
      omega
    · simp [h]

theorem processGroups_inv (o : Oracle) (gs : List TxGroup) :
    ∀ (s : BEState),
      (processGroups o s gs).max = s.max
      ∧ (processGroups o s gs).pendingBlocks = s.pendingBlocks
      ∧ (processGroups o s gs).inflightBlocks = s.inflightBlocks
      ∧ (processGroups o s gs).blocksDone = s.blocksDone
      ∧ (s.evalQueue.length ≤ s.max → (processGroups o s gs).evalQueue.length ≤ s.max) := by
  induction gs with
  | nil =>
    intro s
    simp [processGroups]
  | cons g rest ih =>
    intro s
    have h1 : processGroups o s (g :: rest) = processGroups o (pgStep o s g) rest := rfl
    obtain ⟨e1, e2, e3, e4, e5⟩ := ih (pgStep o s g)
    obtain ⟨f1, f2, f3, f4, f5⟩ := pgStep_inv o s g
    refine ⟨?_, ?_, ?_, ?_, ?_⟩
    · rw [h1, e1, f1]
    · rw [h1, e2, f2]
    · rw [h1, e3, f3]
    · rw [h1, e4, f4]
    · intro hq
      rw [h1]
      have := e5 (by rw [f1]; exact f5 hq)
      rw [f1] at this
      exact this

theorem pollBlockInfos_inflight_le (m : Nat) (pend infl : List FetchTask)
    (h : infl.length ≤ m) :
    (pollBlockInfos m pend infl).2.2.length ≤ m := by
  unfold pollBlockInfos
  have hlen : (infl ++ pend.take (m - infl.length)).length ≤ m := by
    simp only [List.length_append, List.length_take]
    omega
  cases hs : splitFirstReady (fun t => t.delay == 0)
      (infl ++ pend.take (m - infl.length)) with
  | some pr =>
    obtain ⟨t, rest⟩ := pr
    have hp := (splitFirstReady_perm _ _ _ _ hs).length_eq
    simp only [List.length_cons] at hp
    simp only [hs]
    omega
  | none =>
    simp only [hs]
    have h1 : (m - infl.length) ⊓ pend.length ≤ m - infl.length := inf_le_left
    by_cases he : (infl ++ pend.take (m - infl.length)).isEmpty
        && (pend.drop (m - infl.length)).isEmpty
    · simp only [he, if_true, ite_true]
      simp only [List.length_append, List.length_take]
      omega
    · simp only [he, Bool.false_eq_true, if_false, ite_false]
      simp only [List.length_map, List.length_append, List.length_take]
      omega

theorem blockLoop_inv (o : Oracle) :
    ∀ (fuel : Nat) (s : BEState), inflightInv s →
      inflightInv (blockLoop o fuel s).2 ∧ (blockLoop o fuel s).2.max = s.max := by
  intro fuel
  induction fuel with
  | zero =>
    intro s hs
    exact ⟨hs, rfl⟩
  | succ fuel ih =>
    intro s hs
    unfold blockLoop
    by_cases hroom : s.evalQueue.length < s.max
    · simp only [if_pos hroom]
      have hinf : (pollBlockInfos s.max s.pendingBlocks s.inflightBlocks).2.2.length ≤ s.max :=
        pollBlockInfos_inflight_le s.max s.pendingBlocks s.inflightBlocks hs.2
      cases hr : (pollBlockInfos s.max s.pendingBlocks s.inflightBlocks).1 with
      | ready res =>
        cases res with
        | ok gs =>
          simp only [hr]
          set s2 : BEState :=
            { s with pendingBlocks := (pollBlockInfos s.max s.pendingBlocks s.inflightBlocks).2.1,
                     inflightBlocks := (pollBlockInfos s.max s.pendingBlocks s.inflightBlocks).2.2 } with hs2
          obtain ⟨g1, g2, g3, g4, g5⟩ := processGroups_inv o gs s2
          have hq2 : s2.evalQueue.length ≤ s2.max := le_of_lt hroom
          have hinv : inflightInv (processGroups o s2 gs) := by
            constructor
            · rw [g1]
              exact g5 hq2
            · rw [g1, g3]
              exact hinf
          obtain ⟨ha, hb⟩ := ih (processGroups o s2 gs) hinv
          exact ⟨ha, by rw [hb, g1]⟩
        | error e =>
          simp only [hr]
          exact ⟨⟨le_of_lt hroom, hinf⟩, by trivial⟩
      | pending =>
        simp only [hr]
        exact ⟨⟨le_of_lt hroom, hinf⟩, by trivial⟩
      | done =>
        simp only [hr]
        exact ⟨⟨le_of_lt hroom, hinf⟩, by trivial⟩
    · simp only [if_neg hroom]
      exact ⟨hs, by trivial⟩

theorem pollEvalQueue_len_le (q : List EvalJob) :
    (pollEvalQueue q).2.length ≤ q.length := by
  unfold pollEvalQueue
  cases he : q.isEmpty with
  | true => simp
  | false =>
    simp only [Bool.false_eq_true, if_false]
    cases hs : splitFirstReady (fun j => j.delay == 0) q with
    | some pr =>
      obtain ⟨j, rest⟩ := pr
      have hp := (splitFirstReady_perm _ _ _ _ hs).length_eq
      simp only [List.length_cons] at hp
      simp only [hs]
      omega
    | none =>
      simp only [hs]
      simp


/-- The state after the waiting-drain and block-pull phases of one
`poll_next` call. -/
def blockFinal (o : Oracle) (s : BEState) : BEState :=
  (blockLoop o
    ((drainWaiting o s).pendingBlocks.length + (drainWaiting o s).inflightBlocks.length + 1)
    (drainWaiting o s)).2

theorem pollNext_snd (o : Oracle) (s : BEState) :
    (pollNext o s).2 = blockFinal o s
    ∨ (pollNext o s).2
        = { blockFinal o s with
            evalQueue := (pollEvalQueue (blockFinal o s).evalQueue).2 } := by
  unfold pollNext blockFinal
  dsimp only
  split
  · left
    rfl
  · split
    · right
      rfl
    · right
      rfl
    · split
      · left
        rfl
      · left
        rfl

/-- C5 (amended): the initial stream state satisfies, and every
`poll_next` preserves (with `max` itself unchanged), the bound "at most
`max` in-flight evaluations and at most `max` in-flight block fetches",
so the in-flight fetch-or-evaluation count never exceeds `2*max`.  The
waiting queue, by contrast, is unbounded (see the counterexample), so the
claimed bound including queued transactions fails. -/
theorem claim_c5_amended :
    (∀ (tasks : List FetchTask) (m : Nat), inflightInv (BEState.init tasks m))
    ∧ ∀ (o : Oracle) (s : BEState), inflightInv s →
        inflightInv (pollNext o s).2 ∧ (pollNext o s).2.max = s.max
        ∧ (pollNext o s).2.evalQueue.length + (pollNext o s).2.inflightBlocks.length
            ≤ 2 * s.max := by
  constructor
  · intro tasks m
    exact ⟨Nat.zero_le m, Nat.zero_le m⟩
  · intro o s hs
    have hd := drainWaiting_fields o s
    have hinv1 : inflightInv (drainWaiting o s) := by
      constructor
      · rw [hd.2.2.1]
        exact drainWaiting_queue_le o s hs.1
      · rw [hd.2.1, hd.2.2.1]
        exact hs.2
    have hb := blockLoop_inv o
      ((drainWaiting o s).pendingBlocks.length + (drainWaiting o s).inflightBlocks.length + 1)
      (drainWaiting o s) hinv1
    have hbl : inflightInv (blockFinal o s) := hb.1
    have hbm : (blockFinal o s).max = (drainWaiting o s).max := hb.2
    have hmax : (blockFinal o s).max = s.max := by rw [hbm, hd.2.2.1]
    rcases pollNext_snd o s with heq | heq <;> rw [heq]
    · refine ⟨hbl, hmax, ?_⟩
      have h1 := hbl.1
      have h2 := hbl.2
      rw [hmax] at h1 h2
      omega
    · refine ⟨⟨?_, ?_⟩, ?_, ?_⟩
      · exact le_trans (pollEvalQueue_len_le _) hbl.1
      · exact hbl.2
      · exact hmax
      · show (pollEvalQueue (blockFinal o s).evalQueue).2.length
            + (blockFinal o s).inflightBlocks.length ≤ 2 * s.max
        have h1 := le_trans (pollEvalQueue_len_le _) hbl.1
        have h2 := hbl.2
        rw [hmax] at h1 h2
        omega

/-- C5 witness: the amended invariant applied at the concrete
single-block three-transaction stream with cap 1. -/
theorem claim_c5_witness :
    inflightInv (pollNext c5Oracle (BEState.init [c5Task] 1)).2
    ∧ (pollNext c5Oracle (BEState.init [c5Task] 1)).2.max = (BEState.init [c5Task] 1).max
    ∧ (pollNext c5Oracle (BEState.init [c5Task] 1)).2.evalQueue.length
        + (pollNext c5Oracle (BEState.init [c5Task] 1)).2.inflightBlocks.length
        ≤ 2 * (BEState.init [c5Task] 1).max :=
  claim_c5_amended.2 c5Oracle (BEState.init [c5Task] 1) ⟨Nat.zero_le _, Nat.zero_le _⟩

/-! ## Claim C8 -/

/-- C8: the batch stream yields end-of-stream exactly under the three
completion conditions.  (1) Whenever `poll_next` reports completion, the
final state has the block-fetch stage exhausted (`blocks_done`), an empty
evaluation pool and an empty waiting queue.  (2) Whenever the block-fetch
stage is exhausted and pool and queue are empty, the next poll reports
completion.  (3) In particular a stream over the empty block range
`[n, n)` (no fetch tasks) completes on its first poll with no items,
for any positive concurrency cap. -/
theorem claim_c8_completion :
    (∀ (o : Oracle) (s : BEState) (out : PollOut) (s2 : BEState),
        pollNext o s = (out, s2) → out = PollOut.complete →
        s2.blocksDone = true ∧ s2.evalQueue = [] ∧ s2.waiting = [])
    ∧ (∀ (o : Oracle) (s : BEState),
        s.blocksDone = true → s.pendingBlocks = [] → s.inflightBlocks = [] →
        s.evalQueue = [] → s.waiting = [] →
        (pollNext o s).1 = PollOut.complete)
    ∧ (∀ (o : Oracle) (m : Nat), 0 < m →
        (pollNext o (BEState.init [] m)).1 = PollOut.complete)
    ∧ (∀ (o : Oracle) (m fuel : Nat), 0 < m →
        drain o (fuel + 1) (BEState.init [] m) = ([], true)) := by
  have hempty : ∀ (o : Oracle) (m : Nat), 0 < m →
      (pollNext o (BEState.init [] m)).1 = PollOut.complete := by
    intro o m hm
    simp [pollNext, BEState.init, drainWaiting, blockLoop, pollBlockInfos,
      splitFirstReady, pollEvalQueue, hm]
  refine ⟨?_, ?_, hempty, ?_⟩
  · intro o s out s2 heq hout
    subst hout
    unfold pollNext at heq
    dsimp only at heq
    split at heq
    · injection heq with h1 h2
      exact PollOut.noConfusion h1
    · split at heq
      · injection heq with h1 h2
        exact PollOut.noConfusion h1
      · injection heq with h1 h2
        exact PollOut.noConfusion h1
      · split at heq
        · injection heq with h1 h2
          subst h2
          rename_i hcond
          simp only [Bool.and_eq_true] at hcond
          refine ⟨hcond.1.1, ?_, ?_⟩
          · have := hcond.1.2
            simpa using this
          · have := hcond.2
            simpa using this
        · injection heq with h1 h2
          exact PollOut.noConfusion h1
  · intro o s h1 h2 h3 h4 h5
    obtain ⟨pb, ib, q, w, m, bd⟩ := s
    simp only at h1 h2 h3 h4 h5
    subst h1
    subst h2
    subst h3
    subst h4
    subst h5
    by_cases hm : 0 < m
    · simp [pollNext, drainWaiting, blockLoop, pollBlockInfos,
        splitFirstReady, pollEvalQueue, hm]
    · simp [pollNext, drainWaiting, blockLoop, pollBlockInfos,
        splitFirstReady, pollEvalQueue, hm]
  · intro o m fuel hm
    have h := hempty o m hm
    unfold drain
    cases hp : pollNext o (BEState.init [] m) with
    | mk out s2 =>
      rw [hp] at h
      simp only at h
      subst h
      rfl

/-- C8 witness: conjunct (3) applied at a concrete empty range with cap 3. -/
theorem claim_c8_witness :
    (pollNext c5Oracle (BEState.init [] 3)).1 = PollOut.complete :=
  claim_c8_completion.2.2.1 c5Oracle 3 (by decide)

/-! ## Claim C10 -/

/-- The per-block processing loop queues exactly the created
transactions: the pool receives them up to its free capacity and the
waiting queue the remainder. -/
theorem processGroups_take_drop (o : Oracle) (gs : List TxGroup) :
    ∀ s : BEState,
      (processGroups o s gs).evalQueue
        = s.evalQueue
          ++ (((gs.filterMap TxGroup.create).take (s.max - s.evalQueue.length)).map (mkJob o))
      ∧ (processGroups o s gs).waiting
        = s.waiting ++ ((gs.filterMap TxGroup.create).drop (s.max - s.evalQueue.length)) := by
  induction gs with
  | nil =>
    intro s
    simp [processGroups]
  | cons g rest ih =>
    intro s
    have h1 : processGroups o s (g :: rest) = processGroups o (pgStep o s g) rest := rfl
    rw [h1]
    cases hg : g.create with
    | none =>
      have h2 : pgStep o s g = s := by simp [pgStep, hg]
      have h3 : (g :: rest).filterMap TxGroup.create = rest.filterMap TxGroup.create := by
        simp [List.filterMap_cons, hg]
      rw [h2, h3]
      exact ih s
    | some tx =>
      have h3 : (g :: rest).filterMap TxGroup.create
          = tx :: rest.filterMap TxGroup.create := by
        simp [List.filterMap_cons, hg]
      rw [h3]
      by_cases hq : s.evalQueue.length < s.max
      · have h2 : pgStep o s g = { s with evalQueue := s.evalQueue ++ [mkJob o tx] } := by
          simp [pgStep, hg, hq]
        rw [h2]
        obtain ⟨iq, iw⟩ := ih { s with evalQueue := s.evalQueue ++ [mkJob o tx] }
        have hk : s.max - s.evalQueue.length
            = (s.max - (s.evalQueue.length + 1)) + 1 := by omega
        constructor
        · rw [iq]
          simp only [List.length_append, List.length_cons, List.length_nil]
          rw [hk, List.take_succ_cons, List.map_cons, List.append_assoc]
          rfl
        · rw [iw]
          simp only [List.length_append, List.length_cons, List.length_nil]
          rw [hk, List.drop_succ_cons]
      · have h2 : pgStep o s g = { s with waiting := s.waiting ++ [tx] } := by
          simp [pgStep, hg, hq]
        rw [h2]
        obtain ⟨iq, iw⟩ := ih { s with waiting := s.waiting ++ [tx] }
        have hk : s.max - s.evalQueue.length = 0 := by omega
        constructor
        · rw [iq]
          simp [hk]
        · rw [iw]
          simp [hk]

/-- C10: in the per-block processing of `poll_next` (the
`group_by(tx_hash) … filter_map(TransactionData::create(...).ok())` loop),
trace groups whose `TransactionData::create` fails are silently dropped:
the evaluation pool receives exactly the created transactions, in order,
up to the pool's free capacity, and the waiting queue receives exactly
the created remainder — a dropped transaction enters neither the pool nor
the queue, and so can never contribute an `Evaluation` item or an error
item downstream. -/
theorem claim_c10_create_failures_dropped (o : Oracle) (gs : List TxGroup) (s : BEState) :
    (processGroups o s gs).evalQueue
      = s.evalQueue
        ++ (((gs.filterMap TxGroup.create).take (s.max - s.evalQueue.length)).map (mkJob o))
    ∧ (processGroups o s gs).waiting
      = s.waiting ++ ((gs.filterMap TxGroup.create).drop (s.max - s.evalQueue.length)) :=
  processGroups_take_drop o gs s

/-! ## Claim C6 -/

/-- Number of transactions contained in one fetched block. -/
def taskTxs (t : FetchTask) : Nat :=
  match t.result with
  | Except.ok gs => gs.length
  | Except.error _ => 0

/-- Number of transactions contained in a list of block fetches. -/
def tasksTxs (l : List FetchTask) : Nat := (l.map taskTxs).sum

def c6Task : FetchTask :=
  { delay := 0, result := Except.ok [{ hash := 1, create := none }] }

/-- C6 counterexample: a range with one block containing one transaction
whose `TransactionData::create` fails.  The fully drained stream emits no
items at all (it completes on the first poll), so emitted plus errors is
0, not 1: the claimed count equation fails whenever a create fails (and
likewise a failed block fetch yields a single error item for the whole
block rather than one per transaction). -/
theorem claim_c6_counterexample :
    tasksTxs [c6Task] = 1
    ∧ drain c5Oracle 5 (BEState.init [c6Task] 1) = ([], true) := by
  decide

/-- A block fetch is "good" when it succeeds and every contained trace
group materializes (`TransactionData::create` succeeds). -/
def goodTask (t : FetchTask) : Bool :=
  match t.result with
  | Except.ok gs => gs.all (fun g => g.create.isSome)
  | Except.error _ => false

def goodTasks (l : List FetchTask) : Bool := l.all goodTask

/-- The `blocks_done` flag is only set once the fetch stage is exhausted. -/
def doneInv (s : BEState) : Prop :=
  s.blocksDone = true → s.pendingBlocks = [] ∧ s.inflightBlocks = []

/-- Transactions still inside the pipeline: in unfetched or fetching
blocks, in the evaluation pool, or in the waiting queue. -/
def txTotal (s : BEState) : Nat :=
  tasksTxs s.pendingBlocks + tasksTxs s.inflightBlocks
    + s.evalQueue.length + s.waiting.length

theorem tasksTxs_append (a b : List FetchTask) :
    tasksTxs (a ++ b) = tasksTxs a + tasksTxs b := by
  simp [tasksTxs]

theorem tasksTxs_take_drop (k : Nat) (l : List FetchTask) :
    tasksTxs (l.take k) + tasksTxs (l.drop k) = tasksTxs l := by
  rw [← tasksTxs_append, List.take_append_drop]

theorem tasksTxs_perm {l l' : List FetchTask} (h : l.Perm l') :
    tasksTxs l = tasksTxs l' := by
  simp only [tasksTxs]
  exact (h.map taskTxs).sum_eq

theorem tasksTxs_tick (l : List FetchTask) :
    tasksTxs (l.map tickFetch) = tasksTxs l := by
  simp only [tasksTxs, List.map_map]
  have h : taskTxs ∘ tickFetch = taskTxs := funext fun t => rfl
  rw [h]

theorem goodTasks_append (a b : List FetchTask) :
    goodTasks (a ++ b) = (goodTasks a && goodTasks b) := by
  simp [goodTasks, List.all_append]

theorem goodTasks_take (k : Nat) (l : List FetchTask) (h : goodTasks l = true) :
    goodTasks (l.take k) = true := by
  simp only [goodTasks, List.all_eq_true] at h ⊢
  intro x hx
  exact h x (List.mem_of_mem_take hx)

theorem goodTasks_drop (k : Nat) (l : List FetchTask) (h : goodTasks l = true) :
    goodTasks (l.drop k) = true := by
  simp only [goodTasks, List.all_eq_true] at h ⊢
  intro x hx
  exact h x (List.mem_of_mem_drop hx)

theorem goodTasks_tick (l : List FetchTask) (h : goodTasks l = true) :
    goodTasks (l.map tickFetch) = true := by
  simp only [goodTasks, List.all_eq_true] at h ⊢
  intro x hx
  obtain ⟨t, ht, rfl⟩ := List.mem_map.mp hx
  exact h t ht

theorem tasksTxs_cons (t : FetchTask) (l : List FetchTask) :
    tasksTxs (t :: l) = taskTxs t + tasksTxs l := by
  simp [tasksTxs]

theorem goodTasks_mem {l : List FetchTask} {t : FetchTask}
    (h : goodTasks l = true) (hm : t ∈ l) : goodTask t = true := by
  simp only [goodTasks, List.all_eq_true] at h
  exact h t hm

theorem pollBlockInfos_nil (m : Nat) :
    pollBlockInfos m [] [] = (BlockPoll.done, [], []) := by
  simp [pollBlockInfos, splitFirstReady]

theorem pollBlockInfos_ready_ok (m : Nat) (pend infl : List FetchTask)
    (hg1 : goodTasks pend = true) (hg2 : goodTasks infl = true)
    (gs : List TxGroup) (pend2 infl2 : List FetchTask)
    (heq : pollBlockInfos m pend infl = (BlockPoll.ready (Except.ok gs), pend2, infl2)) :
    tasksTxs pend2 + tasksTxs infl2 + gs.length = tasksTxs pend + tasksTxs infl
    ∧ goodTasks pend2 = true ∧ goodTasks infl2 = true
    ∧ gs.all (fun g => g.create.isSome) = true := by
  unfold pollBlockInfos at heq
  dsimp only at heq
  have hginfl2 : goodTasks (infl ++ pend.take (m - infl.length)) = true := by
    rw [goodTasks_append, hg2, goodTasks_take _ _ hg1]
    rfl
  have hcount : tasksTxs (pend.drop (m - infl.length))
      + tasksTxs (infl ++ pend.take (m - infl.length))
      = tasksTxs pend + tasksTxs infl := by
    rw [tasksTxs_append]
    have := tasksTxs_take_drop (m - infl.length) pend
    omega
  cases hs : splitFirstReady (fun t => t.delay == 0)
      (infl ++ pend.take (m - infl.length)) with
  | some pr =>
    obtain ⟨t, rest⟩ := pr
    rw [hs] at heq
    injection heq with h1 h2
    injection h2 with h2a h2b
    subst h2a
    subst h2b
    have hperm := splitFirstReady_perm _ _ _ _ hs
    have htmem : t ∈ infl ++ pend.take (m - infl.length) :=
      hperm.symm.subset (List.mem_cons_self t rest)
    have htgood : goodTask t = true := goodTasks_mem hginfl2 htmem
    have htres : t.result = Except.ok gs := by
      cases hres : t.result with
      | ok gs' =>
        rw [hres] at h1
        injection h1 with h1'
      | error e =>
        rw [hres] at h1
        injection h1 with h1'
    have htxs : taskTxs t = gs.length := by
      simp [taskTxs, htres]
    have hcnt2 : tasksTxs (infl ++ pend.take (m - infl.length))
        = taskTxs t + tasksTxs rest := by
      rw [tasksTxs_perm hperm, tasksTxs_cons]
    refine ⟨by omega, goodTasks_drop _ _ hg1, ?_, ?_⟩
    · simp only [goodTasks, List.all_eq_true]
      intro x hx
      exact goodTasks_mem hginfl2
        (hperm.symm.subset (List.mem_cons_of_mem t hx))
    · have := htgood
      simp only [goodTask, htres] at this
      exact this
  | none =>
    rw [hs] at heq
    by_cases he : ((infl ++ pend.take (m - infl.length)).isEmpty
        && (pend.drop (m - infl.length)).isEmpty) = true
    · rw [if_pos he] at heq
      injection heq with h1 h2
      exact BlockPoll.noConfusion h1
    · rw [if_neg he] at heq
      injection heq with h1 h2
      exact BlockPoll.noConfusion h1

theorem pollBlockInfos_no_error (m : Nat) (pend infl : List FetchTask)
    (hg1 : goodTasks pend = true) (hg2 : goodTasks infl = true)
    (e : BEError) (pend2 infl2 : List FetchTask)
    (heq : pollBlockInfos m pend infl = (BlockPoll.ready (Except.error e), pend2, infl2)) :
    False := by
  unfold pollBlockInfos at heq
  dsimp only at heq
  have hginfl2 : goodTasks (infl ++ pend.take (m - infl.length)) = true := by
    rw [goodTasks_append, hg2, goodTasks_take _ _ hg1]
    rfl
  cases hs : splitFirstReady (fun t => t.delay == 0)
      (infl ++ pend.take (m - infl.length)) with
  | some pr =>
    obtain ⟨t, rest⟩ := pr
    rw [hs] at heq
    injection heq with h1 h2
    have hperm := splitFirstReady_perm _ _ _ _ hs
    have htmem : t ∈ infl ++ pend.take (m - infl.length) :=
      hperm.symm.subset (List.mem_cons_self t rest)
    have htgood : goodTask t = true := goodTasks_mem hginfl2 htmem
    cases hres : t.result with
    | ok gs' =>
      rw [hres] at h1
      injection h1 with h1'
      exact Except.noConfusion h1'
    | error e' =>
      simp only [goodTask, hres] at htgood
      exact Bool.noConfusion htgood
  | none =>
    rw [hs] at heq
    by_cases he : ((infl ++ pend.take (m - infl.length)).isEmpty
        && (pend.drop (m - infl.length)).isEmpty) = true
    · rw [if_pos he] at heq
      injection heq with h1 h2
      exact BlockPoll.noConfusion h1
    · rw [if_neg he] at heq
      injection heq with h1 h2
      exact BlockPoll.noConfusion h1

theorem pollBlockInfos_pending_spec (m : Nat) (pend infl : List FetchTask)
    (hg1 : goodTasks pend = true) (hg2 : goodTasks infl = true)
    (pend2 infl2 : List FetchTask)
    (heq : pollBlockInfos m pend infl = (BlockPoll.pending, pend2, infl2)) :
    tasksTxs pend2 + tasksTxs infl2 = tasksTxs pend + tasksTxs infl
    ∧ goodTasks pend2 = true ∧ goodTasks infl2 = true := by
  unfold pollBlockInfos at heq
  dsimp only at heq
  have hginfl2 : goodTasks (infl ++ pend.take (m - infl.length)) = true := by
    rw [goodTasks_append, hg2, goodTasks_take _ _ hg1]
    rfl
  have hcount : tasksTxs (pend.drop (m - infl.length))
      + tasksTxs (infl ++ pend.take (m - infl.length))
      = tasksTxs pend + tasksTxs infl := by
    rw [tasksTxs_append]
    have := tasksTxs_take_drop (m - infl.length) pend
    omega
  cases hs : splitFirstReady (fun t => t.delay == 0)
      (infl ++ pend.take (m - infl.length)) with
  | some pr =>
    obtain ⟨t, rest⟩ := pr
    rw [hs] at heq
    injection heq with h1 h2
    exact BlockPoll.noConfusion h1
  | none =>
    rw [hs] at heq
    by_cases he : ((infl ++ pend.take (m - infl.length)).isEmpty
        && (pend.drop (m - infl.length)).isEmpty) = true
    · rw [if_pos he] at heq
      injection heq with h1 h2
      exact BlockPoll.noConfusion h1
    · rw [if_neg he] at heq
      injection heq with h1 h2
      injection h2 with h2a h2b
      subst h2a
      subst h2b
      refine ⟨?_, goodTasks_drop _ _ hg1, goodTasks_tick _ hginfl2⟩
      rw [tasksTxs_tick]
      exact hcount

theorem pollBlockInfos_done_spec (m : Nat) (pend infl : List FetchTask)
    (pend2 infl2 : List FetchTask)
    (heq : pollBlockInfos m pend infl = (BlockPoll.done, pend2, infl2)) :
    pend2 = [] ∧ infl2 = [] ∧ tasksTxs pend + tasksTxs infl = 0 := by
  unfold pollBlockInfos at heq
  dsimp only at heq
  have hcount : tasksTxs (pend.drop (m - infl.length))
      + tasksTxs (infl ++ pend.take (m - infl.length))
      = tasksTxs pend + tasksTxs infl := by
    rw [tasksTxs_append]
    have := tasksTxs_take_drop (m - infl.length) pend
    omega
  cases hs : splitFirstReady (fun t => t.delay == 0)
      (infl ++ pend.take (m - infl.length)) with
  | some pr =>
    obtain ⟨t, rest⟩ := pr
    rw [hs] at heq
    injection heq with h1 h2
    exact BlockPoll.noConfusion h1
  | none =>
    rw [hs] at heq
    by_cases he : ((infl ++ pend.take (m - infl.length)).isEmpty
        && (pend.drop (m - infl.length)).isEmpty) = true
    · rw [if_pos he] at heq
      injection heq with h1 h2
      injection h2 with h2a h2b
      subst h2a
      subst h2b
      simp only [Bool.and_eq_true, List.isEmpty_iff] at he
      refine ⟨he.2, he.1, ?_⟩
      rw [he.1, he.2] at hcount
      simpa [tasksTxs] using hcount.symm
    · rw [if_neg he] at heq
      injection heq with h1 h2
      exact BlockPoll.noConfusion h1

theorem filterMap_create_length (gs : List TxGroup)
    (h : gs.all (fun g => g.create.isSome) = true) :
    (gs.filterMap TxGroup.create).length = gs.length := by
  induction gs with
  | nil => rfl
  | cons g rest ih =>
    simp only [List.all_cons, Bool.and_eq_true] at h
    cases hg : g.create with
    | none =>
      rw [hg] at h
      simp at h
    | some tx =>
      simp [List.filterMap_cons, hg, ih h.2]

theorem processGroups_count (o : Oracle) (gs : List TxGroup) (s : BEState)
    (h : gs.all (fun g => g.create.isSome) = true) :
    (processGroups o s gs).evalQueue.length + (processGroups o s gs).waiting.length
      = s.evalQueue.length + s.waiting.length + gs.length := by
  obtain ⟨hq, hw⟩ := processGroups_take_drop o gs s
  rw [hq, hw]
  simp only [List.length_append, List.length_map, List.length_take, List.length_drop]
  rw [filterMap_create_length gs h]
  rcases Nat.le_total (s.max - s.evalQueue.length) gs.length with hle | hle
  · have hA : (s.max - s.evalQueue.length) ⊓ gs.length
        = s.max - s.evalQueue.length := inf_eq_left.mpr hle
    omega
  · have hA : (s.max - s.evalQueue.length) ⊓ gs.length = gs.length :=
      inf_eq_right.mpr hle
    omega

theorem pollEvalQueue_empty_spec (q : List EvalJob)
    (h : (pollEvalQueue q).1 = EvalPoll.empty) : q = [] := by
  by_cases he : q.isEmpty = true
  · exact List.isEmpty_iff.mp he
  · exfalso
    unfold pollEvalQueue at h
    rw [if_neg he] at h
    cases hs : splitFirstReady (fun j => j.delay == 0) q with
    | some pr =>
      obtain ⟨j, rest⟩ := pr
      rw [hs] at h
      exact EvalPoll.noConfusion h
    | none =>
      rw [hs] at h
      exact EvalPoll.noConfusion h

theorem pollEvalQueue_item_spec (q : List EvalJob) (r : Except BEError TxData)
    (h : (pollEvalQueue q).1 = EvalPoll.item r) :
    (pollEvalQueue q).2.length + 1 = q.length := by
  unfold pollEvalQueue at h ⊢
  by_cases he : q.isEmpty = true
  · rw [if_pos he] at h
    exact EvalPoll.noConfusion h
  · rw [if_neg he] at h ⊢
    cases hs : splitFirstReady (fun j => j.delay == 0) q with
    | some pr =>
      obtain ⟨j, rest⟩ := pr
      have hp := (splitFirstReady_perm _ _ _ _ hs).length_eq
      simp only [List.length_cons] at hp
      simpa using hp.symm
    | none =>
      rw [hs] at h
      exact EvalPoll.noConfusion h

theorem pollEvalQueue_pending_spec (q : List EvalJob)
    (h : (pollEvalQueue q).1 = EvalPoll.pending) :
    (pollEvalQueue q).2.length = q.length := by
  unfold pollEvalQueue at h ⊢
  by_cases he : q.isEmpty = true
  · rw [if_pos he] at h
    exact EvalPoll.noConfusion h
  · rw [if_neg he] at h ⊢
    cases hs : splitFirstReady (fun j => j.delay == 0) q with
    | some pr =>
      obtain ⟨j, rest⟩ := pr
      rw [hs] at h
      exact EvalPoll.noConfusion h
    | none =>
      simp

theorem drainWaiting_count (o : Oracle) (s : BEState) :
    txTotal (drainWaiting o s) = txTotal s := by
  obtain ⟨d1, d2, d3, d4⟩ := drainWaiting_fields o s
  simp only [txTotal, d1, d2]
  simp only [drainWaiting, List.length_append, List.length_map,
    List.length_take, List.length_drop]
  have h1 : (s.max - s.evalQueue.length) ⊓ s.waiting.length ≤ s.waiting.length :=
    inf_le_right
  have h2 : ((s.max - s.evalQueue.length) ⊓ s.waiting.length) ⊓ s.waiting.length
      = (s.max - s.evalQueue.length) ⊓ s.waiting.length := inf_eq_left.mpr h1
  omega

theorem blockLoop_conserve (o : Oracle) :
    ∀ (fuel : Nat) (s : BEState),
      goodTasks s.pendingBlocks = true → goodTasks s.inflightBlocks = true →
      doneInv s →
      (blockLoop o fuel s).1 = LoopOut.through
      ∧ txTotal (blockLoop o fuel s).2 = txTotal s
      ∧ goodTasks (blockLoop o fuel s).2.pendingBlocks = true
      ∧ goodTasks (blockLoop o fuel s).2.inflightBlocks = true
      ∧ doneInv (blockLoop o fuel s).2 := by
  intro fuel
  induction fuel with
  | zero =>
    intro s hg1 hg2 hd
    exact ⟨rfl, rfl, hg1, hg2, hd⟩
  | succ fuel ih =>
    intro s hg1 hg2 hd
    unfold blockLoop
    dsimp only
    by_cases hroom : s.evalQueue.length < s.max
    · rw [if_pos hroom]
      cases hr : pollBlockInfos s.max s.pendingBlocks s.inflightBlocks with
      | mk out pr =>
        obtain ⟨pend2, infl2⟩ := pr
        dsimp only
        cases out with
        | ready res =>
          cases res with
          | ok gs =>
            obtain ⟨hcnt, hgp, hgi, hgs⟩ := pollBlockInfos_ready_ok s.max
              s.pendingBlocks s.inflightBlocks hg1 hg2 gs pend2 infl2 hr
            obtain ⟨p1, p2, p3, p4, p5⟩ := processGroups_inv o gs
              { s with pendingBlocks := pend2, inflightBlocks := infl2 }
            have hpc := processGroups_count o gs
              { s with pendingBlocks := pend2, inflightBlocks := infl2 } hgs
            have hgood1 : goodTasks (processGroups o
                { s with pendingBlocks := pend2, inflightBlocks := infl2 } gs).pendingBlocks
                = true := by
              rw [p2]
              exact hgp
            have hgood2 : goodTasks (processGroups o
                { s with pendingBlocks := pend2, inflightBlocks := infl2 } gs).inflightBlocks
                = true := by
              rw [p3]
              exact hgi
            have hdone2 : doneInv (processGroups o
                { s with pendingBlocks := pend2, inflightBlocks := infl2 } gs) := by
              intro hbd
              rw [p4] at hbd
              obtain ⟨hp0, hi0⟩ := hd hbd
              rw [hp0, hi0, pollBlockInfos_nil] at hr
              injection hr with ha hb
              exact BlockPoll.noConfusion ha
            have htx : txTotal (processGroups o
                { s with pendingBlocks := pend2, inflightBlocks := infl2 } gs)
                = txTotal s := by
              simp only [txTotal, p2, p3]
              dsimp only at hpc ⊢
              omega
            obtain ⟨i1, i2, i3, i4, i5⟩ := ih (processGroups o
              { s with pendingBlocks := pend2, inflightBlocks := infl2 } gs)
              hgood1 hgood2 hdone2
            exact ⟨i1, by rw [i2, htx], i3, i4, i5⟩
          | error e =>
            exact (pollBlockInfos_no_error s.max s.pendingBlocks s.inflightBlocks
              hg1 hg2 e pend2 infl2 hr).elim
        | pending =>
          obtain ⟨hcnt, hgp, hgi⟩ := pollBlockInfos_pending_spec s.max
            s.pendingBlocks s.inflightBlocks hg1 hg2 pend2 infl2 hr
          refine ⟨rfl, ?_, hgp, hgi, ?_⟩
          · simp only [txTotal]
            omega
          · intro hbd
            obtain ⟨hp0, hi0⟩ := hd hbd
            rw [hp0, hi0, pollBlockInfos_nil] at hr
            injection hr with ha hb
            exact BlockPoll.noConfusion ha
        | done =>
          obtain ⟨hp2, hi2, hzero⟩ := pollBlockInfos_done_spec s.max
            s.pendingBlocks s.inflightBlocks pend2 infl2 hr
          subst hp2
          subst hi2
          refine ⟨rfl, ?_, rfl, rfl, ?_⟩
          · have hnil : tasksTxs ([] : List FetchTask) = 0 := rfl
            simp only [txTotal, hnil]
            omega
          · intro _
            exact ⟨rfl, rfl⟩
    · rw [if_neg hroom]
      exact ⟨rfl, rfl, hg1, hg2, hd⟩

theorem pollNext_conserve (o : Oracle) (s : BEState) (out : PollOut) (s2 : BEState)
    (hg1 : goodTasks s.pendingBlocks = true) (hg2 : goodTasks s.inflightBlocks = true)
    (hd : doneInv s)
    (heq : pollNext o s = (out, s2)) :
    goodTasks s2.pendingBlocks = true ∧ goodTasks s2.inflightBlocks = true
    ∧ doneInv s2
    ∧ (∀ r, out = PollOut.item r → txTotal s2 + 1 = txTotal s)
    ∧ (out = PollOut.pending → txTotal s2 = txTotal s)
    ∧ (out = PollOut.complete → txTotal s = 0) := by
  obtain ⟨d1, d2, d3, d4⟩ := drainWaiting_fields o s
  have hg1' : goodTasks (drainWaiting o s).pendingBlocks = true := by
    rw [d1]
    exact hg1
  have hg2' : goodTasks (drainWaiting o s).inflightBlocks = true := by
    rw [d2]
    exact hg2
  have hd' : doneInv (drainWaiting o s) := by
    intro hbd
    rw [d4] at hbd
    rw [d1, d2]
    exact hd hbd
  have hcnt1 : txTotal (drainWaiting o s) = txTotal s := drainWaiting_count o s
  obtain ⟨b1, b2, b3, b4, b5⟩ := blockLoop_conserve o
    ((drainWaiting o s).pendingBlocks.length + (drainWaiting o s).inflightBlocks.length + 1)
    (drainWaiting o s) hg1' hg2' hd'
  unfold pollNext at heq
  dsimp only at heq
  rw [b1] at heq
  dsimp only at heq
  have hbtx : txTotal (blockLoop o
      ((drainWaiting o s).pendingBlocks.length + (drainWaiting o s).inflightBlocks.length + 1)
      (drainWaiting o s)).2 = txTotal s := by rw [b2, hcnt1]
  set B := (blockLoop o
    ((drainWaiting o s).pendingBlocks.length + (drainWaiting o s).inflightBlocks.length + 1)
    (drainWaiting o s)).2 with hB
  cases hqr : (pollEvalQueue B.evalQueue).1 with
  | item r =>
    rw [hqr] at heq
    injection heq with h1 h2
    subst h1
    subst h2
    have hlen := pollEvalQueue_item_spec B.evalQueue r hqr
    refine ⟨b3, b4, ?_, ?_, ?_, ?_⟩
    · intro hbd
      exact b5 hbd
    · intro r' _
      simp only [txTotal] at hbtx ⊢
      omega
    · intro hcon
      exact PollOut.noConfusion hcon
    · intro hcon
      exact PollOut.noConfusion hcon
  | pending =>
    rw [hqr] at heq
    injection heq with h1 h2
    subst h1
    subst h2
    have hlen := pollEvalQueue_pending_spec B.evalQueue hqr
    refine ⟨b3, b4, ?_, ?_, ?_, ?_⟩
    · intro hbd
      exact b5 hbd
    · intro r' hcon
      exact PollOut.noConfusion hcon
    · intro _
      simp only [txTotal] at hbtx ⊢
      omega
    · intro hcon
      exact PollOut.noConfusion hcon
  | empty =>
    rw [hqr] at heq
    dsimp only at heq
    have hqnil : B.evalQueue = [] := pollEvalQueue_empty_spec B.evalQueue hqr
    by_cases hcond : (B.blocksDone && B.evalQueue.isEmpty && B.waiting.isEmpty) = true
    · rw [if_pos hcond] at heq
      injection heq with h1 h2
      subst h1
      subst h2
      simp only [Bool.and_eq_true, List.isEmpty_iff] at hcond
      obtain ⟨hpe, hie⟩ := b5 hcond.1.1
      refine ⟨b3, b4, b5, ?_, ?_, ?_⟩
      · intro r' hcon
        exact PollOut.noConfusion hcon
      · intro hcon
        exact PollOut.noConfusion hcon
      · intro _
        rw [← hbtx]
        simp only [txTotal, hpe, hie, hqnil, hcond.2]
        rfl
    · rw [if_neg hcond] at heq
      injection heq with h1 h2
      subst h1
      subst h2
      refine ⟨b3, b4, b5, ?_, ?_, ?_⟩
      · intro r' hcon
        exact PollOut.noConfusion hcon
      · intro _
        exact hbtx
      · intro hcon
        exact PollOut.noConfusion hcon

theorem drain_count (o : Oracle) :
    ∀ (fuel : Nat) (s : BEState) (items : List (Except BEError TxData)),
      goodTasks s.pendingBlocks = true → goodTasks s.inflightBlocks = true →
      doneInv s →
      drain o fuel s = (items, true) →
      items.length = txTotal s := by
  intro fuel
  induction fuel with
  | zero =>
    intro s items hg1 hg2 hd hdr
    unfold drain at hdr
    injection hdr with h1 h2
    exact Bool.noConfusion h2
  | succ fuel ih =>
    intro s items hg1 hg2 hd hdr
    unfold drain at hdr
    cases hp : pollNext o s with
    | mk out s2 =>
      rw [hp] at hdr
      obtain ⟨c1, c2, c3, c4, c5, c6⟩ := pollNext_conserve o s out s2 hg1 hg2 hd hp
      cases out with
      | complete =>
        injection hdr with h1 h2
        subst h1
        simp [c6 rfl]
      | item r =>
        dsimp only at hdr
        injection hdr with h1 h2
        have hpair : drain o fuel s2 = ((drain o fuel s2).1, (drain o fuel s2).2) := rfl
        rw [h2] at hpair
        have hrec := ih s2 (drain o fuel s2).1 c1 c2 c3 hpair
        have hc := c4 r rfl
        rw [← h1]
        simp only [List.length_cons]
        omega
      | pending =>
        have hrec := ih s2 items c1 c2 c3 hdr
        rw [hrec]
        exact c5 rfl

/-- C6 (amended): for a fully drained batch stream, the number of emitted
items (evaluations plus per-transaction evaluation errors) equals the
number of transactions in the fetched blocks of the range PROVIDED every
block fetch succeeds and `TransactionData::create` succeeds for every
transaction.  (Without the proviso the equation fails: a failed create
silently drops its transaction and a failed fetch yields a single error
item for the whole block — see the counterexample.) -/
theorem claim_c6_amended (o : Oracle) (tasks : List FetchTask) (m fuel : Nat)
    (items : List (Except BEError TxData))
    (hgood : goodTasks tasks = true)
    (hdrain : drain o fuel (BEState.init tasks m) = (items, true)) :
    items.length = tasksTxs tasks := by
  have hinfl : goodTasks (BEState.init tasks m).inflightBlocks = true := rfl
  have hdone : doneInv (BEState.init tasks m) := by
    intro h
    exact Bool.noConfusion h
  have h := drain_count o fuel (BEState.init tasks m) items hgood hinfl hdone hdrain
  simpa [txTotal, BEState.init, tasksTxs] using h

def c6GoodTask : FetchTask :=
  { delay := 0,
    result := Except.ok [{ hash := 7, create := some { hash := 7, blockNumber := 9 } }] }

/-- C6 witness: a drained one-block one-transaction stream (all fetches
and creates succeed) emits exactly one item. -/
theorem claim_c6_witness :
    (drain c5Oracle 10 (BEState.init [c6GoodTask] 1)).1.length
      = tasksTxs [c6GoodTask] :=
  claim_c6_amended c5Oracle [c6GoodTask] 1 10
    (drain c5Oracle 10 (BEState.init [c6GoodTask] 1)).1 (by decide) (by decide)
